import Mathlib

/-!
Verification of the bounded-capacity cvar packers of `dynamic_sof_apps`.

Strings are modelled as `List Char` (`Str`).  The two packer modules are
embedded faithfully:

* `src/parsers/rfm_parser/rfm_parser.py` (markup variant) in namespace `Rfm`;
* `src/other/working_func_parser.py` (script variant) in namespace `Qs`.

Python `str.replace` is modelled by `pyReplace`, Python arithmetic on sizes by
`Nat` (all subtraction-truncation sites are guarded by comparisons whose two
sides agree with Python's semantics on the reachable values, as noted inline).
-/

abbrev Str := List Char

/-- Scanner for `pyReplace`: `n` counts characters still to be skipped
because they belong to a pattern occurrence that was just replaced. -/
def pyReplaceGo (p : Char) (ps rep : Str) : Nat → Str → Str
  | _, [] => []
  | 0, c :: cs =>
    if (p :: ps).isPrefixOf (c :: cs) then
      rep ++ pyReplaceGo p ps rep ps.length cs
    else
      c :: pyReplaceGo p ps rep 0 cs
  | n + 1, _ :: cs => pyReplaceGo p ps rep n cs

/-- Python `str.replace(pat, rep)` for a nonempty pattern `p :: ps`:
scan left to right, replacing non-overlapping occurrences, resuming after
the replaced span. -/
def pyReplace (p : Char) (ps rep : Str) (s : Str) : Str :=
  pyReplaceGo p ps rep 0 s

theorem pyReplaceGo_skip (p : Char) (ps rep : Str) (s : Str) : ∀ n : Nat,
    pyReplaceGo p ps rep n s = pyReplaceGo p ps rep 0 (s.drop n) := by
  induction s with
  | nil => intro n; simp [pyReplaceGo]
  | cons c cs ih =>
    intro n
    match n with
    | 0 => rfl
    | n + 1 => rw [pyReplaceGo, List.drop_succ_cons, ih n]

theorem pyReplace_nil (p : Char) (ps rep : Str) : pyReplace p ps rep [] = [] := rfl

theorem pyReplace_cons (p : Char) (ps rep : Str) (c : Char) (cs : Str) :
    pyReplace p ps rep (c :: cs) =
      if (p :: ps).isPrefixOf (c :: cs) then
        rep ++ pyReplace p ps rep (cs.drop ps.length)
      else
        c :: pyReplace p ps rep cs := by
  unfold pyReplace
  rw [pyReplaceGo, pyReplaceGo_skip]

/-- `escape_text` from `rfm_parser.py` line 41 and `working_func_parser.py`
line 30 (both are the same code):
`text.replace('%','%25').replace('"','%22').replace('\n','%0A')`. -/
def escape_text (s : Str) : Str :=
  pyReplace '\n' [] ['%', '0', 'A']
    (pyReplace '"' [] ['%', '2', '2']
      (pyReplace '%' [] ['%', '2', '5'] s))

/-- Modelled from the spec: the host-side decoder is not part of this
repository; the spec (§4.1, §8 Round-trip) defines it as the inverse
replacements `%0A`→newline, `%22`→`"`, `%25`→`%`, applied in that order. -/
def unescape_text (s : Str) : Str :=
  pyReplace '%' ['2', '5'] ['%']
    (pyReplace '%' ['2', '2'] ['"']
      (pyReplace '%' ['0', 'A'] ['\n'] s))

/-- Character-wise view of `escape_text`. -/
def encChar (c : Char) : Str :=
  if c = '%' then ['%', '2', '5']
  else if c = '"' then ['%', '2', '2']
  else if c = '\n' then ['%', '0', 'A']
  else [c]

theorem pyReplace_single (c : Char) (rep : Str) (s : Str) :
    pyReplace c [] rep s = s.flatMap (fun a => if a = c then rep else [a]) := by
  induction s with
  | nil => simp [pyReplace_nil]
  | cons a as ih =>
    rw [pyReplace_cons]
    by_cases h : a = c
    · subst h
      simp [List.isPrefixOf, ih]
    · have hc : (c == a) = false := by simp [Ne.symm h]
      simp [List.isPrefixOf, hc, h, ih]

theorem pyReplace_cons_neg (p : Char) (ps rep : Str) (a : Char) (t : Str)
    (h : (p :: ps).isPrefixOf (a :: t) = false) :
    pyReplace p ps rep (a :: t) = a :: pyReplace p ps rep t := by
  rw [pyReplace_cons]; simp [h]

theorem pyReplace_cons_match (p : Char) (ps rep t : Str) :
    pyReplace p ps rep (p :: (ps ++ t)) = rep ++ pyReplace p ps rep t := by
  rw [pyReplace_cons]
  have hpre : (p :: ps).isPrefixOf (p :: (ps ++ t)) = true := by
    rw [ List.isPrefixOf_iff_prefix]
    exact ⟨t, by simp⟩
  simp [hpre, List.drop_left]

theorem escape_text_eq_flatMap (s : Str) : escape_text s = s.flatMap encChar := by
  unfold escape_text
  rw [pyReplace_single, pyReplace_single, pyReplace_single, List.flatMap_assoc,
    List.flatMap_assoc]
  refine List.flatMap_congr (fun c _ => ?_)
  by_cases h1 : c = '%'
  · subst h1; simp [encChar]
  · by_cases h2 : c = '"'
    · subst h2; simp [encChar]
    · by_cases h3 : c = '\n'
      · subst h3; simp [encChar]
      · simp [encChar, h1, h2, h3]

/-- Character image after decoding `%0A` (newline restored, `%`/`"` still
encoded). -/
def dec1Char (c : Char) : Str :=
  if c = '%' then ['%', '2', '5'] else if c = '"' then ['%', '2', '2'] else [c]

/-- Character image after additionally decoding `%22`. -/
def dec2Char (c : Char) : Str :=
  if c = '%' then ['%', '2', '5'] else [c]

theorem unescape_step1 (s : Str) :
    pyReplace '%' ['0', 'A'] ['\n'] (s.flatMap encChar) = s.flatMap dec1Char := by
  induction s with
  | nil => simp [pyReplace_nil]
  | cons a as ih =>
    rw [List.flatMap_cons, List.flatMap_cons]
    by_cases h1 : a = '%'
    · subst h1
      simp only [show encChar '%' = ['%', '2', '5'] from rfl, List.cons_append,
        List.nil_append]
      rw [pyReplace_cons_neg _ _ _ _ _ (by simp [List.isPrefixOf]),
        pyReplace_cons_neg _ _ _ _ _ (by simp [List.isPrefixOf]),
        pyReplace_cons_neg _ _ _ _ _ (by simp [List.isPrefixOf]), ih]
      simp [dec1Char]
    · by_cases h2 : a = '"'
      · subst h2
        simp only [show encChar '"' = ['%', '2', '2'] from rfl, List.cons_append,
          List.nil_append]
        rw [pyReplace_cons_neg _ _ _ _ _ (by simp [List.isPrefixOf]),
          pyReplace_cons_neg _ _ _ _ _ (by simp [List.isPrefixOf]),
          pyReplace_cons_neg _ _ _ _ _ (by simp [List.isPrefixOf]), ih]
        simp [dec1Char]
      · by_cases h3 : a = '\n'
        · subst h3
          simp only [show encChar '\n' = '%' :: (['0', 'A'] ++ []) from rfl,
            List.cons_append, List.append_nil, List.nil_append]
          rw [show ('%' :: '0' :: 'A' :: as.flatMap encChar)
                = '%' :: (['0', 'A'] ++ as.flatMap encChar) by simp]
          rw [pyReplace_cons_match, ih]
          simp [dec1Char]
        · have hb : ('%' == a) = false := by simp [Ne.symm h1]
          simp only [encChar, if_neg h1, if_neg h2, if_neg h3, List.cons_append,
            List.nil_append]
          rw [pyReplace_cons_neg _ _ _ _ _ (by simp [List.isPrefixOf, hb]), ih]
          simp [dec1Char, h1, h2]

theorem unescape_step2 (s : Str) :
    pyReplace '%' ['2', '2'] ['"'] (s.flatMap dec1Char) = s.flatMap dec2Char := by
  induction s with
  | nil => simp [pyReplace_nil]
  | cons a as ih =>
    rw [List.flatMap_cons, List.flatMap_cons]
    by_cases h1 : a = '%'
    · subst h1
      simp only [show dec1Char '%' = ['%', '2', '5'] from rfl, List.cons_append,
        List.nil_append]
      rw [pyReplace_cons_neg _ _ _ _ _ (by simp [List.isPrefixOf]),
        pyReplace_cons_neg _ _ _ _ _ (by simp [List.isPrefixOf]),
        pyReplace_cons_neg _ _ _ _ _ (by simp [List.isPrefixOf]), ih]
      simp [dec2Char]
    · by_cases h2 : a = '"'
      · subst h2
        simp only [show dec1Char '"' = '%' :: (['2', '2'] ++ []) from rfl,
          List.cons_append, List.append_nil, List.nil_append]
        rw [show ('%' :: '2' :: '2' :: as.flatMap dec1Char)
              = '%' :: (['2', '2'] ++ as.flatMap dec1Char) by simp]
        rw [pyReplace_cons_match, ih]
        simp [dec2Char]
      · have hb : ('%' == a) = false := by simp [Ne.symm h1]
        simp only [dec1Char, if_neg h1, if_neg h2, List.cons_append,
          List.nil_append]
        rw [pyReplace_cons_neg _ _ _ _ _ (by simp [List.isPrefixOf, hb]), ih]
        simp [dec2Char, h1]

theorem unescape_step3 (s : Str) :
    pyReplace '%' ['2', '5'] ['%'] (s.flatMap dec2Char) = s := by
  induction s with
  | nil => simp [pyReplace_nil]
  | cons a as ih =>
    rw [List.flatMap_cons]
    by_cases h1 : a = '%'
    · subst h1
      simp only [show dec2Char '%' = '%' :: (['2', '5'] ++ []) from rfl,
        List.cons_append, List.append_nil, List.nil_append]
      rw [show ('%' :: '2' :: '5' :: as.flatMap dec2Char)
            = '%' :: (['2', '5'] ++ as.flatMap dec2Char) by simp]
      rw [pyReplace_cons_match, ih]
      simp
    · have hb : ('%' == a) = false := by simp [Ne.symm h1]
      simp only [dec2Char, if_neg h1, List.cons_append, List.nil_append]
      rw [pyReplace_cons_neg _ _ _ _ _ (by simp [List.isPrefixOf, hb]), ih]

/-- C5: Escaper round-trip — for every string `s`, applying the inverse
replacements `%0A`→newline, `%22`→`"`, `%25`→`%` (in that order) to
`escape_text s` yields `s` exactly: `decode (encode s) = s`. -/
theorem escape_text_roundtrip (s : Str) : unescape_text (escape_text s) = s := by
  rw [escape_text_eq_flatMap]
  unfold unescape_text
  rw [unescape_step1, unescape_step2, unescape_step3]

/-- C9 (amended): applying `%`→`%25` first and then the `"` and newline
replacements in the opposite order from the source still yields
`escape_text`; full order-independence fails (see the counterexample). -/
theorem escape_text_percent_first (s : Str) :
    pyReplace '"' [] ['%', '2', '2']
      (pyReplace '\n' [] ['%', '0', 'A']
        (pyReplace '%' [] ['%', '2', '5'] s)) = escape_text s := by
  rw [escape_text_eq_flatMap, pyReplace_single, pyReplace_single,
    pyReplace_single, List.flatMap_assoc, List.flatMap_assoc]
  refine List.flatMap_congr (fun c _ => ?_)
  by_cases h1 : c = '%'
  · subst h1; simp [encChar]
  · by_cases h2 : c = '"'
    · subst h2; simp [encChar]
    · by_cases h3 : c = '\n'
      · subst h3; simp [encChar]
      · simp [encChar, h1, h2, h3]

/-- C9 counterexample: applying `"`→`%22` before `%`→`%25` (and then
newline→`%0A`) on the one-character string `"` produces `%2522`, not
`escape_text`'s `%22` — the six replacement orders do not all agree. -/
theorem escape_text_order_dependent :
    pyReplace '\n' [] ['%', '0', 'A']
      (pyReplace '%' [] ['%', '2', '5']
        (pyReplace '"' [] ['%', '2', '2'] ['"'])) ≠ escape_text ['"'] := by
  decide

/-- Python `str.lower()` (character-wise; the inputs treated here are ASCII,
where `Char.toLower` agrees with Python). -/
def pyLower (s : Str) : Str := s.map Char.toLower

/-- Python whitespace, as stripped by `str.strip()` (ASCII range). -/
def pyIsSpace (c : Char) : Bool :=
  c = ' ' || c = '\t' || c = '\n' || c = '\r' || c = '\x0b' || c = '\x0c'

/-- Python `str.strip()`. -/
def pyStrip (s : Str) : Str :=
  ((s.dropWhile pyIsSpace).reverse.dropWhile pyIsSpace).reverse

/-- Python's substring test `pat in s`. -/
def containsSub (pat : Str) : Str → Bool
  | [] => pat.isPrefixOf []
  | c :: cs => pat.isPrefixOf (c :: cs) || containsSub pat cs

theorem containsSub_iff_isInfixOf (pat s : Str) : containsSub pat s = true ↔ pat <:+: s := by
  induction s with
  | nil =>
    simp [containsSub, List.isPrefixOf_iff_prefix]
  | cons c cs ih =>
    rw [containsSub]
    simp [ List.isPrefixOf_iff_prefix, ih, List.infix_cons_iff]

/-- Decimal rendering of a natural number (Python f-string `{i}`). -/
def natStr (n : Nat) : Str := (Nat.repr n).toList

theorem natStr_eq_toDigits (n : Nat) : natStr n = Nat.toDigits 10 n := rfl

/-- Reference decimal digit list, most significant first. -/
def natDigits (n : Nat) : Str :=
  if n < 10 then [Nat.digitChar n]
  else natDigits (n / 10) ++ [Nat.digitChar (n % 10)]
termination_by n
decreasing_by exact Nat.div_lt_self (by omega) (by omega)

theorem toDigitsCore_eq_natDigits :
    ∀ (f n : Nat) (acc : Str), n < f →
      Nat.toDigitsCore 10 f n acc = natDigits n ++ acc := by
  intro f
  induction f with
  | zero => intro n acc h; omega
  | succ f ih =>
    intro n acc h
    rw [Nat.toDigitsCore, natDigits]
    by_cases h10 : n < 10
    · have hz : n / 10 = 0 := Nat.div_eq_of_lt h10
      simp [hz, h10, Nat.mod_eq_of_lt h10]
    · have hnz : ¬ n / 10 = 0 := by
        intro hz
        exact h10 (by omega)
      have hlt : n / 10 < f := by
        have := Nat.div_lt_self (by omega : 0 < n) (by omega : 1 < 10)
        omega
      simp only [hnz, if_false, if_neg h10, ih (n / 10) _ hlt]
      simp

theorem natStr_eq_natDigits (n : Nat) : natStr n = natDigits n := by
  rw [natStr_eq_toDigits]
  have := toDigitsCore_eq_natDigits (n + 1) n [] (Nat.lt_succ_self n)
  simpa [Nat.toDigits] using this

theorem digitChar_toNat (n : Nat) (h : n < 10) : (Nat.digitChar n).toNat = n + 48 := by
  interval_cases n <;> rfl

theorem natDigits_foldl (n : Nat) : ∀ a : Nat,
    (natDigits n).foldl (fun a c => 10 * a + (c.toNat - 48)) a
      = a * 10 ^ (natDigits n).length + n := by
  induction n using Nat.strong_induction_on with
  | _ n ih =>
    intro a
    rw [natDigits]
    by_cases h10 : n < 10
    · simp [h10, digitChar_toNat n h10]
      omega
    · have hlt : n / 10 < n := Nat.div_lt_self (by omega) (by omega)
      simp only [if_neg h10, List.foldl_append, List.foldl_cons, List.foldl_nil,
        ih (n / 10) hlt a, List.length_append, List.length_cons, List.length_nil]
      have hmod : (n % 10) < 10 := Nat.mod_lt n (by omega)
      rw [digitChar_toNat _ hmod]
      have hd := Nat.div_add_mod n 10
      have hpow : (10 : Nat) ^ ((natDigits (n / 10)).length + (0 + 1))
          = 10 ^ (natDigits (n / 10)).length * 10 := by ring
      rw [hpow]
      have hcomm : a * (10 ^ (natDigits (n / 10)).length * 10)
          = 10 * (a * 10 ^ (natDigits (n / 10)).length) := by ring
      rw [hcomm]
      omega

theorem natDigits_inj {m n : Nat} (h : natDigits m = natDigits n) : m = n := by
  have hm := natDigits_foldl m 0
  have hn := natDigits_foldl n 0
  rw [h] at hm
  omega

theorem natStr_inj {m n : Nat} (h : natStr m = natStr n) : m = n := by
  apply natDigits_inj
  rw [← natStr_eq_natDigits, ← natStr_eq_natDigits, h]

theorem escape_text_append (a b : Str) :
    escape_text (a ++ b) = escape_text a ++ escape_text b := by
  rw [escape_text_eq_flatMap, escape_text_eq_flatMap, escape_text_eq_flatMap,
    List.flatMap_append]

theorem escape_text_ne_nil (s : Str) (h : s ≠ []) : escape_text s ≠ [] := by
  match s with
  | c :: cs =>
    rw [escape_text_eq_flatMap, List.flatMap_cons]
    have : encChar c ≠ [] := by
      unfold encChar
      by_cases h1 : c = '%' <;> by_cases h2 : c = '"' <;> by_cases h3 : c = '\n' <;>
        simp [h1, h2, h3]
    intro hc
    rcases List.append_eq_nil.mp hc with ⟨h4, -⟩
    exact this h4

theorem escape_len_take_mono (raw text : Str) {k m : Nat} (hk : k ≤ m) :
    (escape_text (raw ++ text.take k)).length ≤ (escape_text (raw ++ text.take m)).length := by
  have hsplit : text.take m = text.take k ++ (text.drop k).take (m - k) := by
    rw [← List.take_add]
    congr 1
    omega
  rw [hsplit]
  simp only [escape_text_append, List.length_append]
  omega

/-- Fuel-indexed version of the binary-search loop of `_split_text_to_fit`
(`rfm_parser.py` lines 116-124), generic in the fit predicate `P`. -/
def bsearchGo (P : Nat → Bool) : Nat → Nat → Nat → Nat → Nat
  | 0, _, _, best => best
  | fuel + 1, lo, hi, best =>
    if lo ≤ hi then
      let mid := (lo + hi) / 2
      if P mid then bsearchGo P fuel (mid + 1) hi mid
      else bsearchGo P fuel lo (mid - 1) best
    else best

/-- The `lo`/`hi`/`best` binary-search of `_split_text_to_fit`. -/
def bsearchLoop (P : Nat → Bool) (lo hi best : Nat) : Nat :=
  bsearchGo P (hi + 1 - lo) lo hi best

theorem bsearchGo_zero (P : Nat → Bool) (lo hi best : Nat) :
    bsearchGo P 0 lo hi best = best := rfl

theorem bsearchGo_succ (P : Nat → Bool) (fuel lo hi best : Nat) :
    bsearchGo P (fuel + 1) lo hi best =
      if lo ≤ hi then
        if P ((lo + hi) / 2) then bsearchGo P fuel ((lo + hi) / 2 + 1) hi ((lo + hi) / 2)
        else bsearchGo P fuel lo ((lo + hi) / 2 - 1) best
      else best := rfl

theorem bsearchGo_spec (P : Nat → Bool) (len : Nat)
    (hdc : ∀ k m, k ≤ m → P m = true → P k = true) :
    ∀ fuel lo hi best, hi + 1 - lo ≤ fuel → hi ≤ len → best ≤ len → best < lo →
      (best = 0 ∨ P best = true) →
      (∀ k, best < k → k ≤ len → P k = true → lo ≤ k ∧ k ≤ hi) →
      (bsearchGo P fuel lo hi best = 0 ∨ P (bsearchGo P fuel lo hi best) = true) ∧
      bsearchGo P fuel lo hi best ≤ len ∧
      ∀ k, bsearchGo P fuel lo hi best < k → k ≤ len → P k = false := by
  intro fuel
  induction fuel with
  | zero =>
    intro lo hi best hfuel hhi hbest hblo hbase hinv
    have hlohi : ¬ lo ≤ hi := by omega
    refine ⟨hbase, hbest, fun k hk hklen => ?_⟩
    by_cases hp : P k = true
    · rcases hinv k hk hklen hp with ⟨h1, h2⟩
      omega
    · simpa using hp
  | succ fuel ih =>
    intro lo hi best hfuel hhi hbest hblo hbase hinv
    rw [bsearchGo_succ]
    by_cases hlohi : lo ≤ hi
    · have hmidlo : lo ≤ (lo + hi) / 2 := by omega
      have hmidhi : (lo + hi) / 2 ≤ hi := by omega
      simp only [hlohi, if_true]
      by_cases hp : P ((lo + hi) / 2) = true
      · simp only [hp, if_true]
        refine ih ((lo + hi) / 2 + 1) hi ((lo + hi) / 2) (by omega) hhi (by omega)
          (by omega) (Or.inr hp) ?_
        intro k hk hklen hpk
        have := hinv k (by omega) hklen hpk
        omega
      · simp only [hp, if_false]
        refine ih lo ((lo + hi) / 2 - 1) best (by omega) (by omega) hbest hblo hbase ?_
        intro k hk hklen hpk
        have h1 := hinv k hk hklen hpk
        by_cases hkm : (lo + hi) / 2 ≤ k
        · exact absurd (hdc _ _ hkm hpk) (by simpa using hp)
        · omega
    · simp only [hlohi, if_false]
      refine ⟨hbase, hbest, fun k hk hklen => ?_⟩
      by_cases hp : P k = true
      · rcases hinv k hk hklen hp with ⟨h1, h2⟩
        omega
      · simpa using hp

theorem bsearchLoop_spec (P : Nat → Bool) (len : Nat)
    (hdc : ∀ k m, k ≤ m → P m = true → P k = true) :
    (bsearchLoop P 1 len 0 = 0 ∨ P (bsearchLoop P 1 len 0) = true) ∧
    bsearchLoop P 1 len 0 ≤ len ∧
    ∀ k, bsearchLoop P 1 len 0 < k → k ≤ len → P k = false := by
  refine bsearchGo_spec P len hdc (len + 1 - 1) 1 len 0 (by omega) (by omega)
    (by omega) (by omega) (Or.inl rfl) ?_
  intro k hk hklen _
  omega

namespace Rfm

/-- `RmfParser._get_set_overhead` (rfm_parser.py line 44):
`len(f'set {cvar_name} ""')`. -/
def get_set_overhead (cvarName : Str) : Nat :=
  ("set ".toList ++ cvarName ++ " \"\"".toList).length

/-- `RmfParser._split_text_to_fit` (lines 103-127).  The source's
`current_escaped_len` parameter is never read by its body and is omitted. -/
def split_text_to_fit (current_raw text : Str) (maxWithLink : Nat) : Str × Str :=
  if text = [] then ([], [])
  else if (escape_text (current_raw ++ text)).length ≤ maxWithLink then (text, [])
  else
    let best := bsearchLoop
      (fun mid => decide ((escape_text (current_raw ++ text.take mid)).length ≤ maxWithLink))
      1 text.length 0
    if best = 0 then ([], text) else (text.take best, text.drop best)

/-- Helper: full characterization of `split_text_to_fit` (shared by the
packer-structure lemmas below). -/
theorem split_text_to_fit_cases (current_raw text : Str) (maxWithLink : Nat) :
    (split_text_to_fit current_raw text maxWithLink).1
        ++ (split_text_to_fit current_raw text maxWithLink).2 = text ∧
    ((split_text_to_fit current_raw text maxWithLink).1 = [] ∨
      (escape_text (current_raw ++ (split_text_to_fit current_raw text maxWithLink).1)).length
        ≤ maxWithLink) ∧
    ∀ k, (split_text_to_fit current_raw text maxWithLink).1.length < k → k ≤ text.length →
      ¬ (escape_text (current_raw ++ text.take k)).length ≤ maxWithLink := by
  have hdc : ∀ k m, k ≤ m →
      (fun mid => decide ((escape_text (current_raw ++ text.take mid)).length ≤ maxWithLink)) m
        = true →
      (fun mid => decide ((escape_text (current_raw ++ text.take mid)).length ≤ maxWithLink)) k
        = true := by
    intro k m hkm hm
    simp only [decide_eq_true_eq] at hm ⊢
    exact le_trans (escape_len_take_mono current_raw text hkm) hm
  obtain ⟨hb1, hb2, hb3⟩ := bsearchLoop_spec
    (fun mid => decide ((escape_text (current_raw ++ text.take mid)).length ≤ maxWithLink))
    text.length hdc
  by_cases h0 : text = []
  · subst h0
    refine ⟨rfl, Or.inl rfl, ?_⟩
    intro k hk hklen
    simp only [split_text_to_fit, if_pos rfl] at hk
    simp at hk hklen
    omega
  · by_cases h1 : (escape_text (current_raw ++ text)).length ≤ maxWithLink
    · have hsplit : split_text_to_fit current_raw text maxWithLink = (text, []) := by
        simp only [split_text_to_fit, h0, if_false, if_pos h1]
      rw [hsplit]
      refine ⟨by simp, Or.inr h1, ?_⟩
      intro k hk hklen
      simp at hk
      omega
    · by_cases hz : bsearchLoop
          (fun mid => decide ((escape_text (current_raw ++ text.take mid)).length ≤ maxWithLink))
          1 text.length 0 = 0
      · have hsplit : split_text_to_fit current_raw text maxWithLink = ([], text) := by
          simp [split_text_to_fit, h0, h1, hz]
        rw [hsplit]
        refine ⟨rfl, Or.inl rfl, ?_⟩
        intro k hk hklen
        have := hb3 k (by omega) hklen
        simpa using this
      · have hsplit : split_text_to_fit current_raw text maxWithLink =
            (text.take (bsearchLoop
              (fun mid => decide ((escape_text (current_raw ++ text.take mid)).length ≤ maxWithLink))
              1 text.length 0),
             text.drop (bsearchLoop
              (fun mid => decide ((escape_text (current_raw ++ text.take mid)).length ≤ maxWithLink))
              1 text.length 0)) := by
          simp only [split_text_to_fit, h0, if_false, if_neg h1, hz]
        rw [hsplit]
        rcases hb1 with hb1 | hb1
        · exact absurd hb1 hz
        refine ⟨List.take_append_drop _ _, Or.inr ?_, ?_⟩
        · simpa using hb1
        · intro k hk hklen
          simp only [List.length_take] at hk
          have hlen : min (bsearchLoop
              (fun mid => decide ((escape_text (current_raw ++ text.take mid)).length ≤ maxWithLink))
              1 text.length 0) text.length = bsearchLoop
              (fun mid => decide ((escape_text (current_raw ++ text.take mid)).length ≤ maxWithLink))
              1 text.length 0 := min_eq_left hb2
          rw [hlen] at hk
          have := hb3 k hk hklen
          simpa using this

/-- C7: Longest-prefix split — `_split_text_to_fit` returns `(pre, rem)` with
`pre ++ rem = text`, where `pre` is the longest prefix of `text` whose escaped
concatenation behind `current_raw` still fits in `max_with_link` (and the
empty prefix when not even one character fits). -/
theorem split_text_to_fit_spec (current_raw text : Str) (maxWithLink : Nat) :
    (split_text_to_fit current_raw text maxWithLink).1
        ++ (split_text_to_fit current_raw text maxWithLink).2 = text ∧
    ((split_text_to_fit current_raw text maxWithLink).1 = [] ∨
      (escape_text (current_raw ++ (split_text_to_fit current_raw text maxWithLink).1)).length
        ≤ maxWithLink) ∧
    ∀ k, (split_text_to_fit current_raw text maxWithLink).1.length < k → k ≤ text.length →
      ¬ (escape_text (current_raw ++ text.take k)).length ≤ maxWithLink :=
  split_text_to_fit_cases current_raw text maxWithLink

/-- Witness for C7 at a concrete split (`current_raw = "ab"`,
`text = "cdef"`, `max_with_link = 5`: the split point falls after `cde`). -/
theorem split_text_to_fit_spec_witness :
    (split_text_to_fit "ab".toList "cdef".toList 5).1
        ++ (split_text_to_fit "ab".toList "cdef".toList 5).2 = "cdef".toList ∧
    ((split_text_to_fit "ab".toList "cdef".toList 5).1 = [] ∨
      (escape_text ("ab".toList
        ++ (split_text_to_fit "ab".toList "cdef".toList 5).1)).length ≤ 5) ∧
    ∀ k, (split_text_to_fit "ab".toList "cdef".toList 5).1.length < k →
      k ≤ "cdef".toList.length →
      ¬ (escape_text ("ab".toList ++ "cdef".toList.take k)).length ≤ 5 :=
  split_text_to_fit_spec "ab".toList "cdef".toList 5

/-- Token of `RmfParser._tokenize`: `('tag', '<...>')` or `('text', '...')`. -/
inductive Tok where
  | tag (raw : Str)
  | text (raw : Str)
deriving DecidableEq

/-- The raw payload of a token. -/
def Tok.raw : Tok → Str
  | .tag r => r
  | .text r => r

/-- `tag_text.lower().strip() == '<stm>'` (line 81). -/
def tagIsStmOpen (raw : Str) : Bool := pyStrip (pyLower raw) = "<stm>".toList

/-- `tag_text.lower().strip() == '</stm>'` (line 84). -/
def tagIsStmClose (raw : Str) : Bool := pyStrip (pyLower raw) = "</stm>".toList

/-- The quote-aware tag scan of `_tokenize` (lines 66-78): consume up to and
including the first unquoted `>`, or to end of input (truncated tag).
Returns the consumed characters (after the initial `<`) and the rest. -/
def scanTag (inQuote : Bool) : Str → Str × Str
  | [] => ([], [])
  | c :: cs =>
    let q := if c = '"' then !inQuote else inQuote
    if c = '>' && !q then ([c], cs)
    else ((c :: (scanTag q cs).1), (scanTag q cs).2)

theorem scanTag_append (inQuote : Bool) (s : Str) :
    (scanTag inQuote s).1 ++ (scanTag inQuote s).2 = s := by
  induction s generalizing inQuote with
  | nil => rfl
  | cons c cs ih =>
    simp only [scanTag]
    by_cases h : (c = '>' && !(if c = '"' then !inQuote else inQuote)) = true
    · simp [h]
    · simp only [Bool.not_eq_true] at h
      simp [h, ih]

theorem scanTag_rest_le (inQuote : Bool) (s : Str) :
    (scanTag inQuote s).2.length ≤ s.length := by
  induction s generalizing inQuote with
  | nil => simp [scanTag]
  | cons c cs ih =>
    simp only [scanTag]
    by_cases h : (c = '>' && !(if c = '"' then !inQuote else inQuote)) = true
    · simp [h]
    · simp only [Bool.not_eq_true] at h
      simp only [h, Bool.false_eq_true, if_false, List.length_cons]
      exact le_trans (ih _) (by omega)

/-- Fuel-indexed main loop of `RmfParser._tokenize` (lines 64-101).  The
`j > n` clamp of line 76 is unreachable and omitted.  Run with
`fuel = content.length` (each step consumes at least one character). -/
def tokenizeGo (hasStm : Bool) : Nat → Bool → Str → List Tok
  | 0, _, _ => []
  | _ + 1, _, [] => []
  | fuel + 1, insideStm, c :: cs =>
    if c = '<' then
      if tagIsStmOpen ('<' :: (scanTag false cs).1) then
        tokenizeGo hasStm fuel true (scanTag false cs).2
      else if tagIsStmClose ('<' :: (scanTag false cs).1) then
        tokenizeGo hasStm fuel false (scanTag false cs).2
      else if insideStm || !hasStm then
        Tok.tag ('<' :: (scanTag false cs).1) :: tokenizeGo hasStm fuel insideStm (scanTag false cs).2
      else
        tokenizeGo hasStm fuel insideStm (scanTag false cs).2
    else
      if ((c :: cs).takeWhile (fun a => a ≠ '<')) ≠ [] ∧ (insideStm || !hasStm) then
        Tok.text ((c :: cs).takeWhile (fun a => a ≠ '<'))
          :: tokenizeGo hasStm fuel insideStm ((c :: cs).dropWhile (fun a => a ≠ '<'))
      else
        tokenizeGo hasStm fuel insideStm ((c :: cs).dropWhile (fun a => a ≠ '<'))

/-- `RmfParser._tokenize` (lines 48-101). -/
def tokenize (content : Str) : List Tok :=
  tokenizeGo (containsSub "<stm>".toList (pyLower content)) content.length false content

/-- The same scan loop with no `<stm>` handling at all: every tag and every
nonempty inter-tag text run becomes a token, in document order. -/
def allTokensGo : Nat → Str → List Tok
  | 0, _ => []
  | _ + 1, [] => []
  | fuel + 1, c :: cs =>
    if c = '<' then
      Tok.tag ('<' :: (scanTag false cs).1) :: allTokensGo fuel (scanTag false cs).2
    else
      Tok.text ((c :: cs).takeWhile (fun a => a ≠ '<'))
        :: allTokensGo fuel ((c :: cs).dropWhile (fun a => a ≠ '<'))

/-- All tag/text tokens of a document, unfiltered. -/
def allTokens (content : Str) : List Tok := allTokensGo content.length content

/-- The wrapper-region selection described by the spec, as a state machine
over the unfiltered token stream: `<stm>` opens a region, `</stm>` closes it,
neither is ever emitted; other tokens are kept iff the region is open or the
document contains no `<stm>` at all (nonempty text only). -/
def stmFilter (hasStm : Bool) : Bool → List Tok → List Tok
  | _, [] => []
  | insideStm, Tok.tag raw :: ts =>
    if tagIsStmOpen raw then stmFilter hasStm true ts
    else if tagIsStmClose raw then stmFilter hasStm false ts
    else if insideStm || !hasStm then Tok.tag raw :: stmFilter hasStm insideStm ts
    else stmFilter hasStm insideStm ts
  | insideStm, Tok.text raw :: ts =>
    if raw ≠ [] ∧ (insideStm || !hasStm) then Tok.text raw :: stmFilter hasStm insideStm ts
    else stmFilter hasStm insideStm ts

theorem tokenizeGo_eq_stmFilter (hasStm : Bool) :
    ∀ (fuel : Nat) (insideStm : Bool) (s : Str), s.length ≤ fuel →
      tokenizeGo hasStm fuel insideStm s = stmFilter hasStm insideStm (allTokensGo fuel s) := by
  intro fuel
  induction fuel with
  | zero =>
    intro insideStm s hs
    have : s = [] := by
      cases s with
      | nil => rfl
      | cons c cs => simp at hs
    subst this
    rfl
  | succ fuel ih =>
    intro insideStm s hs
    cases s with
    | nil => rfl
    | cons c cs =>
      simp only [List.length_cons] at hs
      by_cases hc : c = '<'
      · subst hc
        have hrest : (scanTag false cs).2.length ≤ fuel :=
          le_trans (scanTag_rest_le false cs) (by omega)
        have hall : allTokensGo (fuel + 1) ('<' :: cs)
            = Tok.tag ('<' :: (scanTag false cs).1) :: allTokensGo fuel (scanTag false cs).2 := by
          rw [allTokensGo]
          simp
        rw [tokenizeGo, hall]
        simp only [if_pos rfl]
        simp only [stmFilter]
        by_cases h1 : tagIsStmOpen ('<' :: (scanTag false cs).1) = true
        · simp only [h1, if_true, ih _ _ hrest]
        · simp only [Bool.not_eq_true] at h1
          by_cases h2 : tagIsStmClose ('<' :: (scanTag false cs).1) = true
          · simp only [h1, h2, Bool.false_eq_true, if_false, if_true, ih _ _ hrest]
          · simp only [Bool.not_eq_true] at h2
            by_cases h3 : (insideStm || !hasStm) = true
            · simp only [h1, h2, h3, Bool.false_eq_true, if_false, if_true,
                ih _ _ hrest]
            · simp only [h1, h2, h3, Bool.false_eq_true, if_false, ih _ _ hrest]
              simp
      · have hdw : (c :: cs).dropWhile (fun a => a ≠ '<') = cs.dropWhile (fun a => a ≠ '<') := by
          rw [List.dropWhile_cons]
          simp [hc]
        have hrest : ((c :: cs).dropWhile (fun a => a ≠ '<')).length ≤ fuel := by
          rw [hdw]
          exact le_trans (List.dropWhile_suffix _).length_le (by omega)
        have hall : allTokensGo (fuel + 1) (c :: cs)
            = Tok.text ((c :: cs).takeWhile (fun a => a ≠ '<'))
                :: allTokensGo fuel ((c :: cs).dropWhile (fun a => a ≠ '<')) := by
          rw [allTokensGo]
          simp [hc]
        rw [tokenizeGo, hall]
        simp only [hc, if_false, ite_false]
        simp only [stmFilter]
        by_cases h3 : (((c :: cs).takeWhile (fun a => a ≠ '<')) ≠ [] ∧ (insideStm || !hasStm))
        · simp only [if_pos h3, ih _ _ hrest]
        · simp only [if_neg h3, ih _ _ hrest]

/-- C6: Markup wrapper rule — `_tokenize` equals the unfiltered scan of every
tag/nonempty-text token followed by the wrapper-region selection: with no
`<stm>` substring every token is kept in document order; with `<stm>` present
only tokens inside an open wrapper region are kept; `<stm>`/`</stm>` tags are
never emitted. -/
theorem tokenize_eq_stmFilter (content : Str) :
    tokenize content
      = stmFilter (containsSub "<stm>".toList (pyLower content)) false (allTokens content) :=
  tokenizeGo_eq_stmFilter _ content.length false content (le_refl _)

theorem pyStrip_infix (s : Str) : pyStrip s <:+: s := by
  unfold pyStrip
  have h1 : s.dropWhile pyIsSpace <:+ s := List.dropWhile_suffix _
  have h2 : (s.dropWhile pyIsSpace).reverse.dropWhile pyIsSpace <:+
      (s.dropWhile pyIsSpace).reverse := List.dropWhile_suffix _
  rcases h1 with ⟨u, hu⟩
  rcases h2 with ⟨v, hv⟩
  have h3 : ((s.dropWhile pyIsSpace).reverse.dropWhile pyIsSpace).reverse <+:
      s.dropWhile pyIsSpace := by
    refine ⟨v.reverse, ?_⟩
    have := congrArg List.reverse hv
    simpa [List.reverse_append] using this
  rcases h3 with ⟨w, hw⟩
  refine ⟨u, w, ?_⟩
  rw [List.append_assoc, hw]
  exact hu

theorem containsSub_of_isInfixOf {pat b : Str} (h : pat <:+: b) :
    containsSub pat b = true := (containsSub_iff_isInfixOf pat b).mpr h

theorem not_containsSub_mono {pat s t : Str} (h : containsSub pat s = false)
    (hsub : t <:+: s) : containsSub pat t = false := by
  by_cases hc : containsSub pat t = true
  · have := containsSub_of_isInfixOf (((containsSub_iff_isInfixOf pat t).mp hc).trans hsub)
    rw [this] at h
    cases h
  · simpa using hc

theorem pyLower_mono_pre {a b : Str} (h : a <+: b) : pyLower a <+: pyLower b := by
  rcases h with ⟨t, ht⟩
  exact ⟨pyLower t, by rw [← ht]; simp [pyLower]⟩

theorem pyLower_suffix {a b : Str} (h : a <:+ b) : pyLower a <:+ pyLower b := by
  rcases h with ⟨t, ht⟩
  exact ⟨pyLower t, by rw [← ht]; simp [pyLower]⟩

theorem tokenizeGo_lossless :
    ∀ (fuel : Nat) (s : Str), s.length ≤ fuel →
      containsSub "<stm>".toList (pyLower s) = false →
      containsSub "</stm>".toList (pyLower s) = false →
      ∀ insideStm, (tokenizeGo false fuel insideStm s).flatMap Tok.raw = s := by
  intro fuel
  induction fuel with
  | zero =>
    intro s hs _ _ insideStm
    have : s = [] := by
      cases s with
      | nil => rfl
      | cons c cs => simp at hs
    subst this
    rfl
  | succ fuel ih =>
    intro s hs hopen hclose insideStm
    cases s with
    | nil => rfl
    | cons c cs =>
      simp only [List.length_cons] at hs
      by_cases hc : c = '<'
      · subst hc
        have hsplit : ('<' :: (scanTag false cs).1) ++ (scanTag false cs).2 = '<' :: cs := by
          rw [List.cons_append, scanTag_append]
        have htagpre : ('<' :: (scanTag false cs).1) <+: ('<' :: cs) :=
          ⟨(scanTag false cs).2, hsplit⟩
        have hrestsuf : (scanTag false cs).2 <:+ ('<' :: cs) :=
          ⟨'<' :: (scanTag false cs).1, hsplit⟩
        have hrest : (scanTag false cs).2.length ≤ fuel :=
          le_trans (scanTag_rest_le false cs) (by omega)
        have hropen : containsSub "<stm>".toList (pyLower (scanTag false cs).2) = false :=
          not_containsSub_mono hopen (pyLower_suffix hrestsuf).isInfix
        have hrclose : containsSub "</stm>".toList (pyLower (scanTag false cs).2) = false :=
          not_containsSub_mono hclose (pyLower_suffix hrestsuf).isInfix
        have h1 : tagIsStmOpen ('<' :: (scanTag false cs).1) = false := by
          by_cases h : tagIsStmOpen ('<' :: (scanTag false cs).1) = true
          · exfalso
            unfold tagIsStmOpen at h
            simp only [decide_eq_true_eq] at h
            have hinf : "<stm>".toList <:+: pyLower ('<' :: cs) :=
              (h ▸ pyStrip_infix (pyLower ('<' :: (scanTag false cs).1))).trans
                (pyLower_mono_pre htagpre).isInfix
            rw [containsSub_of_isInfixOf hinf] at hopen
            cases hopen
          · simpa using h
        have h2 : tagIsStmClose ('<' :: (scanTag false cs).1) = false := by
          by_cases h : tagIsStmClose ('<' :: (scanTag false cs).1) = true
          · exfalso
            unfold tagIsStmClose at h
            simp only [decide_eq_true_eq] at h
            have hinf : "</stm>".toList <:+: pyLower ('<' :: cs) :=
              (h ▸ pyStrip_infix (pyLower ('<' :: (scanTag false cs).1))).trans
                (pyLower_mono_pre htagpre).isInfix
            rw [containsSub_of_isInfixOf hinf] at hclose
            cases hclose
          · simpa using h
        rw [tokenizeGo]
        simp only [if_pos rfl, h1, h2, Bool.false_eq_true, if_false, Bool.not_false,
          Bool.or_true, if_true, List.flatMap_cons, Tok.raw]
        rw [ih _ hrest hropen hrclose insideStm, hsplit]
      · have hdw : (c :: cs).dropWhile (fun a => a ≠ '<') = cs.dropWhile (fun a => a ≠ '<') := by
          rw [List.dropWhile_cons]
          simp [hc]
        have hrestsuf : (c :: cs).dropWhile (fun a => a ≠ '<') <:+ (c :: cs) :=
          List.dropWhile_suffix _
        have hrest : ((c :: cs).dropWhile (fun a => a ≠ '<')).length ≤ fuel := by
          rw [hdw]
          exact le_trans (List.dropWhile_suffix _).length_le (by omega)
        have hropen : containsSub "<stm>".toList
            (pyLower ((c :: cs).dropWhile (fun a => a ≠ '<'))) = false :=
          not_containsSub_mono hopen (pyLower_suffix hrestsuf).isInfix
        have hrclose : containsSub "</stm>".toList
            (pyLower ((c :: cs).dropWhile (fun a => a ≠ '<'))) = false :=
          not_containsSub_mono hclose (pyLower_suffix hrestsuf).isInfix
        have htw : (c :: cs).takeWhile (fun a => a ≠ '<') ≠ [] := by
          rw [List.takeWhile_cons]
          simp [hc]
        rw [tokenizeGo]
        simp only [hc, if_false, ite_false, htw, Bool.not_false, Bool.or_true, and_true,
          ne_eq, not_false_eq_true, if_pos, List.flatMap_cons, Tok.raw]
        rw [ih _ hrest hropen hrclose insideStm]
        simp [ne_eq, List.takeWhile_append_dropWhile]

/-- C10: Lossless tokenization without wrapper markers — when the lowercased
document contains neither `<stm>` nor `</stm>`, the concatenated raw values
of all tokens of `_tokenize`, in order, reproduce the document exactly. -/
theorem tokenize_lossless (content : Str)
    (h1 : containsSub "<stm>".toList (pyLower content) = false)
    (h2 : containsSub "</stm>".toList (pyLower content) = false) :
    (tokenize content).flatMap Tok.raw = content := by
  unfold tokenize
  rw [h1]
  exact tokenizeGo_lossless content.length content (le_refl _) h1 h2 false

/-- Witness for C10 at the concrete document `<a>hi<b x="1">tail`. -/
theorem tokenize_lossless_witness :
    containsSub "<stm>".toList (pyLower "<a>hi<b x=\"1\">tail".toList) = false ∧
    containsSub "</stm>".toList (pyLower "<a>hi<b x=\"1\">tail".toList) = false ∧
    (tokenize "<a>hi<b x=\"1\">tail".toList).flatMap Tok.raw = "<a>hi<b x=\"1\">tail".toList :=
  ⟨by decide, by decide, tokenize_lossless _ (by decide) (by decide)⟩

/-- Concatenated raw content of the token pieces forming one chunk. -/
def chunkOf (ps : List Tok) : Str := ps.flatMap Tok.raw

/-- `pieces` refines `tokens`: every tag is kept whole and in order; every
text token is replaced by a sequence of fragments concatenating back to it. -/
inductive SplitsTexts : List Tok → List Tok → Prop
  | nil : SplitsTexts [] []
  | tag (r : Str) {ts ps : List Tok} : SplitsTexts ts ps →
      SplitsTexts (Tok.tag r :: ts) (Tok.tag r :: ps)
  | text (t : Str) (frags : List Str) {ts ps : List Tok}
      (hcat : frags.flatten = t) (h : SplitsTexts ts ps) :
      SplitsTexts (Tok.text t :: ts) (frags.map Tok.text ++ ps)

/-- Inner text loop of `_pack_tokens_to_chunks` (lines 176-196), fuel-indexed
(each iteration strictly decreases `2*remaining.length + (current ≠ [])`).
State: accumulated chunks and current chunk content. -/
def packTextLoop (maxWithLink : Nat) : Nat → List Str → Str → Str → (List Str × Str)
  | 0, chunks, cur, _ => (chunks, cur)
  | _ + 1, chunks, cur, [] => (chunks, cur)
  | fuel + 1, chunks, cur, r :: rs =>
    if (split_text_to_fit cur (r :: rs) maxWithLink).1 ≠ [] then
      packTextLoop maxWithLink fuel chunks
        (cur ++ (split_text_to_fit cur (r :: rs) maxWithLink).1)
        (split_text_to_fit cur (r :: rs) maxWithLink).2
    else
      if cur ≠ [] then
        packTextLoop maxWithLink fuel (chunks ++ [cur]) [] (r :: rs)
      else
        packTextLoop maxWithLink fuel chunks [r] rs

/-- Main loop of `_pack_tokens_to_chunks` (lines 157-196): tags must fit
whole (flushing the current chunk if needed, fatal if a tag cannot fit even
alone); text is split via `_split_text_to_fit`. -/
def packTokensGo (maxWithLink : Nat) : List Tok → List Str → Str → Option (List Str)
  | [], chunks, cur => some (chunks ++ if cur = [] then [] else [cur])
  | Tok.tag v :: ts, chunks, cur =>
    if (escape_text (cur ++ v)).length ≤ maxWithLink then
      packTokensGo maxWithLink ts chunks (cur ++ v)
    else
      if cur ≠ [] then
        if (escape_text v).length > maxWithLink then none
        else packTokensGo maxWithLink ts (chunks ++ [cur]) v
      else
        if (escape_text v).length > maxWithLink then none
        else packTokensGo maxWithLink ts chunks v
  | Tok.text v :: ts, chunks, cur =>
    packTokensGo maxWithLink ts
      (packTextLoop maxWithLink (2 * v.length + 2) chunks cur v).1
      (packTextLoop maxWithLink (2 * v.length + 2) chunks cur v).2

/-- `RmfParser._pack_tokens_to_chunks` (lines 129-199); a `raise` is `none`.
`max_with_link ≤ 0` covers Python's negative values (the `Nat` subtraction
truncates exactly the values the source's `<= 0` test rejects). -/
def pack_tokens_to_chunks (maxCvarSize : Nat) (tokens : List Tok) (baseName : Str) :
    Option (List Str) :=
  if tokens = [] then some []
  else
    if maxCvarSize - get_set_overhead (baseName ++ "_999".toList)
        - (escape_text ("<includecvar ".toList ++ (baseName ++ "_999".toList) ++ ">\n".toList)).length
        ≤ 0 then none
    else
      packTokensGo
        (maxCvarSize - get_set_overhead (baseName ++ "_999".toList)
          - (escape_text ("<includecvar ".toList ++ (baseName ++ "_999".toList) ++ ">\n".toList)).length)
        tokens [] []

/-- Chain-link raw text `<includecvar {base}_{i}>\n` (line 215). -/
def includeLink (base : Str) (i : Nat) : Str :=
  "<includecvar ".toList ++ base ++ ('_' :: natStr i) ++ ">\n".toList

/-- The render-and-verify loop of `parse_and_pack` (lines 210-223); the
post-condition violation (`raise`) is `none`. -/
def renderCvars (maxCvarSize : Nat) (base : Str) (n : Nat) : Nat → List Str → Option (List (Str × Str))
  | _, [] => some []
  | i, chunk :: rest =>
    if get_set_overhead (base ++ ('_' :: natStr i))
        + (escape_text (if i < n - 1 then chunk ++ includeLink base (i + 1) else chunk)).length
        > maxCvarSize then none
    else
      match renderCvars maxCvarSize base n (i + 1) rest with
      | none => none
      | some l => some ((base ++ ('_' :: natStr i),
          escape_text (if i < n - 1 then chunk ++ includeLink base (i + 1) else chunk)) :: l)

/-- `RmfParser.parse_and_pack` (lines 201-224).  The md5-seeded base name
produced by `RmfCvarNamer` is taken as the parameter `base` (its value plays
no role in the logic; the source computes `m_` plus a 4-hex-digit hash). -/
def parse_and_pack (maxCvarSize : Nat) (base : Str) (content : Str) :
    Option (List (Str × Str)) :=
  match pack_tokens_to_chunks maxCvarSize (tokenize content) base with
  | none => none
  | some chunks =>
    if chunks = [] then some []
    else renderCvars maxCvarSize base chunks.length 0 chunks

theorem chunkOf_append (a b : List Tok) : chunkOf (a ++ b) = chunkOf a ++ chunkOf b :=
  List.flatMap_append a b _

theorem raw_text (s : Str) : (Tok.text s).raw = s := rfl

theorem raw_tag (s : Str) : (Tok.tag s).raw = s := rfl

theorem chunkOf_text_single (s : Str) : chunkOf [Tok.text s] = s := by
  simp [chunkOf, raw_text]

theorem chunkOf_tag_single (s : Str) : chunkOf [Tok.tag s] = s := by
  simp [chunkOf, raw_tag]

theorem chunkOf_eq_nil (l : List Tok) (hne : ∀ p ∈ l, Tok.raw p ≠ [])
    (h : chunkOf l = []) : l = [] := by
  cases l with
  | nil => rfl
  | cons p ps =>
    unfold chunkOf at h
    rw [List.flatMap_cons] at h
    rcases List.append_eq_nil.mp h with ⟨h1, -⟩
    exact absurd h1 (hne p (by simp))

theorem packTextLoop_structure (maxWithLink : Nat) :
    ∀ (fuel : Nat) (rem : Str) (partsAcc : List (List Tok)) (curParts : List Tok),
      2 * rem.length + (if chunkOf curParts = [] then 0 else 1) < fuel →
      (∀ p ∈ curParts, Tok.raw p ≠ []) →
      ∃ (partsAcc' : List (List Tok)) (curParts' : List Tok) (frags : List Str),
        (packTextLoop maxWithLink fuel (partsAcc.map chunkOf) (chunkOf curParts) rem).1
          = partsAcc'.map chunkOf ∧
        (packTextLoop maxWithLink fuel (partsAcc.map chunkOf) (chunkOf curParts) rem).2
          = chunkOf curParts' ∧
        (∀ p ∈ curParts', Tok.raw p ≠ []) ∧
        partsAcc'.flatten ++ curParts' = partsAcc.flatten ++ curParts ++ frags.map Tok.text ∧
        frags.flatten = rem := by
  intro fuel
  induction fuel with
  | zero =>
    intro rem partsAcc curParts hfuel _
    omega
  | succ fuel ih =>
    intro rem partsAcc curParts hfuel hne
    cases rem with
    | nil =>
      refine ⟨partsAcc, curParts, [], rfl, rfl, hne, by simp, rfl⟩
    | cons r rs =>
      simp only [List.length_cons] at hfuel
      have hsp := (split_text_to_fit_cases (chunkOf curParts) (r :: rs) maxWithLink).1
      rw [packTextLoop]
      by_cases h1 : (split_text_to_fit (chunkOf curParts) (r :: rs) maxWithLink).1 ≠ []
      · -- a nonempty prefix fits: extend the current chunk
        rw [if_pos h1]
        have hlen : (split_text_to_fit (chunkOf curParts) (r :: rs) maxWithLink).2.length
            ≤ rs.length := by
          have := congrArg List.length hsp
          simp only [List.length_append, List.length_cons] at this
          have hp1 : 0 < (split_text_to_fit (chunkOf curParts) (r :: rs) maxWithLink).1.length :=
            List.length_pos.mpr h1
          omega
        have hcur : chunkOf curParts ++ (split_text_to_fit (chunkOf curParts) (r :: rs) maxWithLink).1
            = chunkOf (curParts
                ++ [Tok.text (split_text_to_fit (chunkOf curParts) (r :: rs) maxWithLink).1]) := by
          rw [chunkOf_append, chunkOf_text_single]
        have hne' : ∀ p ∈ curParts
            ++ [Tok.text (split_text_to_fit (chunkOf curParts) (r :: rs) maxWithLink).1],
            Tok.raw p ≠ [] := by
          intro p hp
          rcases List.mem_append.mp hp with hp | hp
          · exact hne p hp
          · simp only [List.mem_singleton] at hp
            subst hp
            simpa [raw_text] using h1
        obtain ⟨pa', cp', frags, e1, e2, e3, e4, e5⟩ := ih
          (split_text_to_fit (chunkOf curParts) (r :: rs) maxWithLink).2 partsAcc
          (curParts ++ [Tok.text (split_text_to_fit (chunkOf curParts) (r :: rs) maxWithLink).1])
          (by
            by_cases hflag : chunkOf (curParts
                ++ [Tok.text (split_text_to_fit (chunkOf curParts) (r :: rs) maxWithLink).1]) = []
            · simp only [hflag, if_pos]
              omega
            · simp only [hflag, ite_false]
              omega)
          hne'
        rw [hcur]
        refine ⟨pa', cp',
          (split_text_to_fit (chunkOf curParts) (r :: rs) maxWithLink).1 :: frags,
          e1, e2, e3, ?_, ?_⟩
        · rw [e4]
          simp [List.append_assoc]
        · rw [List.flatten, e5]
          exact hsp
      · -- nothing fits
        rw [if_neg h1]
        simp only [ne_eq, Decidable.not_not] at h1
        by_cases h2 : chunkOf curParts ≠ []
        · -- flush the current chunk
          rw [if_pos h2]
          simp only [h2, ite_false] at hfuel
          have hchunks : (partsAcc.map chunkOf) ++ [chunkOf curParts]
              = (partsAcc ++ [curParts]).map chunkOf := by
            simp
          obtain ⟨pa', cp', frags, e1, e2, e3, e4, e5⟩ := ih (r :: rs) (partsAcc ++ [curParts]) []
            (by
              simp only [chunkOf, List.flatMap_nil, if_pos, List.length_cons]
              omega)
            (by intro p hp; cases hp)
          rw [hchunks]
          refine ⟨pa', cp', frags, e1, e2, e3, ?_, e5⟩
          rw [e4]
          simp [List.append_assoc]
        · -- current chunk empty and nothing fits: move one char
          rw [if_neg h2]
          simp only [ne_eq, Decidable.not_not] at h2
          have hcpnil : curParts = [] := chunkOf_eq_nil curParts hne h2
          subst hcpnil
          simp only [show (chunkOf [] : Str) = [] from rfl, if_pos] at hfuel
          obtain ⟨pa', cp', frags, e1, e2, e3, e4, e5⟩ := ih rs partsAcc [Tok.text [r]]
            (by
              by_cases hflag : chunkOf [Tok.text [r]] = []
              · simp only [hflag, if_pos]
                omega
              · simp only [hflag, ite_false]
                omega)
            (by
              intro p hp
              simp only [List.mem_singleton] at hp
              subst hp
              simp [raw_text])
          have hr : ([r] : Str) = chunkOf [Tok.text [r]] := (chunkOf_text_single [r]).symm
          rw [hr]
          refine ⟨pa', cp', [r] :: frags, e1, e2, e3, ?_, ?_⟩
          · rw [e4]
            simp
          · rw [List.flatten, e5]
            rfl

theorem packTokensGo_structure (maxWithLink : Nat) :
    ∀ (ts : List Tok) (partsAcc : List (List Tok)) (curParts : List Tok) (out : List Str),
      (∀ t ∈ ts, ∀ r, t = Tok.tag r → r ≠ []) →
      (∀ p ∈ curParts, Tok.raw p ≠ []) →
      packTokensGo maxWithLink ts (partsAcc.map chunkOf) (chunkOf curParts) = some out →
      ∃ (parts : List (List Tok)) (ps : List Tok),
        out = parts.map chunkOf ∧
        parts.flatten = partsAcc.flatten ++ curParts ++ ps ∧
        SplitsTexts ts ps := by
  intro ts
  induction ts with
  | nil =>
    intro partsAcc curParts out _ hne hout
    rw [packTokensGo] at hout
    by_cases h2 : chunkOf curParts = []
    · have : curParts = [] := chunkOf_eq_nil curParts hne h2
      subst this
      refine ⟨partsAcc, [], ?_, by simp, SplitsTexts.nil⟩
      simp only [show (chunkOf [] : Str) = [] from rfl, if_pos] at hout
      simp only [List.append_nil] at hout
      exact (Option.some.injEq _ _).mp hout.symm |>.symm ▸ rfl
    · simp only [h2, ite_false] at hout
      refine ⟨partsAcc ++ [curParts], [], ?_, by simp, SplitsTexts.nil⟩
      have := (Option.some.injEq _ _).mp hout
      rw [← this]
      simp
  | cons t ts ih =>
    intro partsAcc curParts out htags hne hout
    have htags' : ∀ t ∈ ts, ∀ r, t = Tok.tag r → r ≠ [] := by
      intro u hu r hr
      exact htags u (by simp [hu]) r hr
    cases t with
    | tag v =>
      have hv : v ≠ [] := htags (Tok.tag v) (by simp) v rfl
      rw [packTokensGo] at hout
      by_cases hfit : (escape_text (chunkOf curParts ++ v)).length ≤ maxWithLink
      · rw [if_pos hfit] at hout
        have hcur : chunkOf curParts ++ v = chunkOf (curParts ++ [Tok.tag v]) := by
          rw [chunkOf_append, chunkOf_tag_single]
        rw [hcur] at hout
        obtain ⟨parts, ps, e1, e2, e3⟩ := ih partsAcc (curParts ++ [Tok.tag v]) out htags'
          (by
            intro p hp
            rcases List.mem_append.mp hp with hp | hp
            · exact hne p hp
            · simp only [List.mem_singleton] at hp
              subst hp
              simpa [raw_tag] using hv)
          hout
        refine ⟨parts, Tok.tag v :: ps, e1, ?_, SplitsTexts.tag v e3⟩
        rw [e2]
        simp [List.append_assoc]
      · rw [if_neg hfit] at hout
        by_cases h2 : chunkOf curParts ≠ []
        · rw [if_pos h2] at hout
          by_cases hbig : (escape_text v).length > maxWithLink
          · rw [if_pos hbig] at hout
            cases hout
          · rw [if_neg hbig] at hout
            have hchunks : (partsAcc.map chunkOf) ++ [chunkOf curParts]
                = (partsAcc ++ [curParts]).map chunkOf := by simp
            have hv' : (v : Str) = chunkOf [Tok.tag v] := (chunkOf_tag_single v).symm
            rw [hchunks, hv'] at hout
            obtain ⟨parts, ps, e1, e2, e3⟩ := ih (partsAcc ++ [curParts]) [Tok.tag v] out htags'
              (by
                intro p hp
                simp only [List.mem_singleton] at hp
                subst hp
                simpa [raw_tag] using hv)
              hout
            refine ⟨parts, Tok.tag v :: ps, e1, ?_, SplitsTexts.tag v e3⟩
            rw [e2]
            simp [List.append_assoc]
        · rw [if_neg h2] at hout
          simp only [ne_eq, Decidable.not_not] at h2
          have : curParts = [] := chunkOf_eq_nil curParts hne h2
          subst this
          by_cases hbig : (escape_text v).length > maxWithLink
          · rw [if_pos hbig] at hout
            cases hout
          · rw [if_neg hbig] at hout
            have hv' : (v : Str) = chunkOf [Tok.tag v] := (chunkOf_tag_single v).symm
            rw [hv'] at hout
            obtain ⟨parts, ps, e1, e2, e3⟩ := ih partsAcc [Tok.tag v] out htags'
              (by
                intro p hp
                simp only [List.mem_singleton] at hp
                subst hp
                simpa [raw_tag] using hv)
              hout
            refine ⟨parts, Tok.tag v :: ps, e1, ?_, SplitsTexts.tag v e3⟩
            rw [e2]
            simp [List.append_assoc]
    | text v =>
      rw [packTokensGo] at hout
      obtain ⟨pa', cp', frags, e1, e2, e3, e4, e5⟩ :=
        packTextLoop_structure maxWithLink (2 * v.length + 2) v partsAcc curParts
          (by by_cases hflag : chunkOf curParts = [] <;> simp [hflag])
          hne
      rw [e1, e2] at hout
      obtain ⟨parts, ps, f1, f2, f3⟩ := ih pa' cp' out htags' e3 hout
      refine ⟨parts, frags.map Tok.text ++ ps, f1, ?_, SplitsTexts.text v frags e5 f3⟩
      rw [f2, e4]
      simp [List.append_assoc]

/-- Atomicity of the markup chunker: every successful `_pack_tokens_to_chunks`
result is the chunk-wise concatenation of a piece stream refining the tokens
— tags stay whole inside exactly one chunk, only text is fragmented. -/
theorem pack_tokens_to_chunks_atomic (maxCvarSize : Nat) (tokens : List Tok) (base : Str)
    (chunks : List Str)
    (htags : ∀ t ∈ tokens, ∀ r, t = Tok.tag r → r ≠ [])
    (h : pack_tokens_to_chunks maxCvarSize tokens base = some chunks) :
    ∃ parts : List (List Tok), chunks = parts.map chunkOf ∧
      SplitsTexts tokens parts.flatten := by
  unfold pack_tokens_to_chunks at h
  by_cases h0 : tokens = []
  · subst h0
    simp only [if_pos rfl] at h
    have := (Option.some.injEq _ _).mp h
    subst this
    exact ⟨[], rfl, SplitsTexts.nil⟩
  · rw [if_neg h0] at h
    by_cases hcap : maxCvarSize - get_set_overhead (base ++ "_999".toList)
        - (escape_text ("<includecvar ".toList ++ (base ++ "_999".toList) ++ ">\n".toList)).length
        ≤ 0
    · rw [if_pos hcap] at h
      cases h
    · rw [if_neg hcap] at h
      obtain ⟨parts, ps, e1, e2, e3⟩ := packTokensGo_structure _ tokens [] [] chunks htags
        (by intro p hp; cases hp) h
      refine ⟨parts, e1, ?_⟩
      rw [e2]
      simpa using e3

theorem tokenizeGo_tag_ne_nil (hasStm : Bool) :
    ∀ (fuel : Nat) (insideStm : Bool) (s : Str) (t : Tok),
      t ∈ tokenizeGo hasStm fuel insideStm s → ∀ r, t = Tok.tag r → r ≠ [] := by
  intro fuel
  induction fuel with
  | zero =>
    intro insideStm s t ht
    simp [tokenizeGo] at ht
  | succ fuel ih =>
    intro insideStm s t ht r htr
    cases s with
    | nil => simp [tokenizeGo] at ht
    | cons c cs =>
      rw [tokenizeGo] at ht
      by_cases hc : c = '<'
      · subst hc
        rw [if_pos rfl] at ht
        split_ifs at ht with h1 h2 h3
        · exact ih _ _ _ ht r htr
        · exact ih _ _ _ ht r htr
        · rcases List.mem_cons.mp ht with he | hmem
          · rw [he] at htr
            injection htr with hraw
            rw [← hraw]
            simp
          · exact ih _ _ _ hmem r htr
        · exact ih _ _ _ ht r htr
      · rw [if_neg hc] at ht
        split_ifs at ht with h1
        · rcases List.mem_cons.mp ht with he | hmem
          · rw [he] at htr
            cases htr
          · exact ih _ _ _ hmem r htr
        · exact ih _ _ _ ht r htr

theorem tokenize_tag_ne_nil (content : Str) :
    ∀ t ∈ tokenize content, ∀ r, t = Tok.tag r → r ≠ [] := by
  intro t ht
  exact tokenizeGo_tag_ne_nil _ _ _ _ t ht

/-- The escaped cell contents computed by the render loop of
`parse_and_pack`, as a pure function of the chunks. -/
def rfmContents (base : Str) (n : Nat) : Nat → List Str → List Str
  | _, [] => []
  | i, chunk :: rest =>
    escape_text (if i < n - 1 then chunk ++ includeLink base (i + 1) else chunk)
      :: rfmContents base n (i + 1) rest

theorem renderCvars_spec (maxCvarSize : Nat) (base : Str) (n : Nat) :
    ∀ (cs : List Str) (i : Nat) (l : List (Str × Str)),
      renderCvars maxCvarSize base n i cs = some l →
      l.map Prod.fst = (List.range' i cs.length).map (fun j => base ++ ('_' :: natStr j)) ∧
      l.map Prod.snd = rfmContents base n i cs := by
  intro cs
  induction cs with
  | nil =>
    intro i l h
    rw [renderCvars] at h
    have := (Option.some.injEq _ _).mp h
    rw [← this]
    simp [rfmContents]
  | cons chunk rest ih =>
    intro i l h
    rw [renderCvars] at h
    by_cases hbig : get_set_overhead (base ++ ('_' :: natStr i))
        + (escape_text (if i < n - 1 then chunk ++ includeLink base (i + 1) else chunk)).length
        > maxCvarSize
    · rw [if_pos hbig] at h
      cases h
    · rw [if_neg hbig] at h
      rcases hrec : renderCvars maxCvarSize base n (i + 1) rest with _ | l'
      · rw [hrec] at h
        cases h
      · rw [hrec] at h
        have hl := (Option.some.injEq _ _).mp h
        obtain ⟨h1, h2⟩ := ih (i + 1) l' hrec
        rw [← hl]
        constructor
        · simp only [List.map_cons, h1, List.length_cons]
          rw [List.range'_succ]
          simp
        · simp only [List.map_cons, h2, rfmContents]

/-- C8 (amended): name uniqueness holds in the markup variant — the cell
list returned by `parse_and_pack` never contains two cells with the same
name (`{base}_{i}` with sequential `i`).  The script variant does not
guarantee this (see the counterexample: two functions with the same name
produce duplicate cell names). -/
theorem parse_and_pack_names_nodup (maxCvarSize : Nat) (base : Str) (content : Str)
    (cvars : List (Str × Str)) (h : parse_and_pack maxCvarSize base content = some cvars) :
    (cvars.map Prod.fst).Nodup := by
  unfold parse_and_pack at h
  cases hp : pack_tokens_to_chunks maxCvarSize (tokenize content) base with
  | none => rw [hp] at h; cases h
  | some chunks =>
    rw [hp] at h
    dsimp only at h
    split_ifs at h with h0
    · have := (Option.some.injEq _ _).mp h
      rw [← this]
      simp
    · obtain ⟨h1, h2⟩ := renderCvars_spec maxCvarSize base chunks.length chunks 0 cvars h
      rw [h1]
      refine List.Nodup.map ?_ (List.nodup_range' 0 chunks.length)
      intro a b hab
      have h3 : ('_' :: natStr a) = ('_' :: natStr b) := List.append_cancel_left hab
      injection h3 with h4 h5
      exact natStr_inj h5

/-- Witness for C8's amended theorem at a concrete markup compile. -/
theorem parse_and_pack_names_nodup_witness :
    parse_and_pack 60 "m".toList "<a>x</a>".toList
      = some [("m_0".toList, "<a>x</a>".toList)] ∧
    (([("m_0".toList, "<a>x</a>".toList)] : List (Str × Str)).map Prod.fst).Nodup :=
  ⟨by decide, parse_and_pack_names_nodup 60 "m".toList "<a>x</a>".toList _ (by decide)⟩

end Rfm

/-- Python `'; '.join`-style joining (as produced by the script packer's
incremental `current_chunk += sep + part`). -/
def sepJoin (sep : Str) : List Str → Str
  | [] => []
  | [x] => x
  | x :: y :: xs => x ++ sep ++ sepJoin sep (y :: xs)

theorem sepJoin_cons₂ (sep x y : Str) (xs : List Str) :
    sepJoin sep (x :: y :: xs) = x ++ sep ++ sepJoin sep (y :: xs) := rfl

theorem sepJoin_append_single (sep : Str) (x : Str) :
    ∀ (g : List Str), g ≠ [] → sepJoin sep (g ++ [x]) = sepJoin sep g ++ sep ++ x := by
  intro g
  induction g with
  | nil => intro h; cases h rfl
  | cons a g ih =>
    intro _
    cases g with
    | nil => rfl
    | cons b g' =>
      have ih' := ih (by simp)
      simp only [List.cons_append] at ih' ⊢
      rw [sepJoin_cons₂, sepJoin_cons₂ sep a b g', ih']
      simp [List.append_assoc]

theorem sepJoin_append (sep : Str) :
    ∀ (g1 g2 : List Str), g1 ≠ [] → g2 ≠ [] →
      sepJoin sep (g1 ++ g2) = sepJoin sep g1 ++ sep ++ sepJoin sep g2 := by
  intro g1
  induction g1 with
  | nil => intro g2 h; cases h rfl
  | cons a g1 ih =>
    intro g2 _ hg2
    cases g1 with
    | nil =>
      cases g2 with
      | nil => cases hg2 rfl
      | cons b g2' => rfl
    | cons c g1' =>
      rw [show ((a :: c :: g1') ++ g2) = a :: ((c :: g1') ++ g2) from rfl]
      have hne : (c :: g1') ++ g2 ≠ [] := by simp
      cases hcg : (c :: g1') ++ g2 with
      | nil => exact absurd hcg hne
      | cons d ds =>
        rw [sepJoin_cons₂, ← hcg, ih g2 (by simp) hg2, sepJoin_cons₂]
        simp [List.append_assoc]

theorem sepJoin_ne_nil (sep : Str) (g : List Str) (hg : g ≠ [])
    (helem : ∀ x ∈ g, x ≠ []) : sepJoin sep g ≠ [] := by
  cases g with
  | nil => cases hg rfl
  | cons a g' =>
    cases g' with
    | nil =>
      simpa [sepJoin] using helem a (by simp)
    | cons b g'' =>
      rw [sepJoin_cons₂]
      intro hcontra
      rcases List.append_eq_nil.mp hcontra with ⟨h1, h2⟩
      rcases List.append_eq_nil.mp h1 with ⟨h3, h4⟩
      exact helem a (by simp) h3

namespace Qs

/-- `QuakeScriptParser._get_set_command_overhead` (working_func_parser.py
line 217): `len(f'set {cvar_name} ""')`. -/
def get_set_command_overhead (cvarName : Str) : Nat :=
  ("set ".toList ++ cvarName ++ " \"\"".toList).length

/-- Scanner for `re.split(r'; (?=(?:[^"]*"[^"]*")*[^"]*$)', command)`
(line 227): split at every `'; '` whose following remainder holds an even
number of `"` characters; `acc` is the current piece, reversed. -/
def splitAtomicGo (acc : Str) : Str → List Str
  | [] => [acc.reverse]
  | [c] => [(c :: acc).reverse]
  | c :: c2 :: cs =>
    if c = ';' ∧ c2 = ' ' ∧ cs.count '"' % 2 = 0 then
      acc.reverse :: splitAtomicGo [] cs
    else
      splitAtomicGo (c :: acc) (c2 :: cs)

/-- The atomic-command split of `_pack_command_to_cvars` (line 227). -/
def splitAtomic (command : Str) : List Str := splitAtomicGo [] command

/-- The escaped `'; '` separator (line 231). -/
def sepE : Str := escape_text "; ".toList

/-- `link_overhead` (line 232): `len(escape('; sp_sc_exec_cvar {base}_99'))`. -/
def linkOverhead (base : Str) : Nat :=
  (escape_text ("; sp_sc_exec_cvar ".toList ++ base ++ "_99".toList)).length

/-- The greedy chunking loop of `_pack_command_to_cvars` (lines 234-253),
without the merge pass.  A fatal oversized atomic command is `none`.  The
`Nat`-truncated budgets agree with Python's possibly-negative ones at every
comparison (the compared side is ≥ 1 whenever truncation occurs). -/
def packPartsGo (maxCvarSize : Nat) (base : Str) : List Str → List Str → Str → Option (List Str)
  | [], chunks, cur => some (chunks ++ if cur = [] then [] else [cur])
  | part :: ps, chunks, cur =>
    if (escape_text part).length
        > maxCvarSize - get_set_command_overhead (base ++ "_99".toList) - linkOverhead base then
      none
    else if cur = [] then
      packPartsGo maxCvarSize base ps chunks (escape_text part)
    else if cur.length + sepE.length + (escape_text part).length
        ≤ maxCvarSize - get_set_command_overhead (base ++ ('_' :: natStr chunks.length))
          - linkOverhead base then
      packPartsGo maxCvarSize base ps chunks (cur ++ sepE ++ escape_text part)
    else
      packPartsGo maxCvarSize base ps (chunks ++ [cur]) (escape_text part)

/-- The merge-back correction pass of `_pack_command_to_cvars`
(lines 255-274): if the last two chunks joined by `'; '` fit a final cell
(no outgoing link), merge them and drop the redundant chunk. -/
def mergeBack (maxCvarSize : Nat) (base : Str) (chunks : List Str) : List Str :=
  if 1 < chunks.length then
    match chunks.reverse with
    | lastC :: penult :: restRev =>
      if penult.length + sepE.length + lastC.length
          ≤ maxCvarSize
            - get_set_command_overhead (base ++ ('_' :: natStr (chunks.length - 2))) then
        ((penult ++ sepE ++ lastC) :: restRev).reverse
      else chunks
    | _ => chunks
  else chunks

/-- The chunk phase of `_pack_command_to_cvars` with the merge-back pass
removed (the comparison run of the spec's idempotent-merge property). -/
def packCommandChunksNoMerge (maxCvarSize : Nat) (command : Str) (base : Str) :
    Option (List Str) :=
  packPartsGo maxCvarSize base ((splitAtomic command).filter (fun p => p ≠ [])) [] []

/-- The chunk phase of `_pack_command_to_cvars` as shipped (greedy pass
followed by the merge-back pass). -/
def packCommandChunks (maxCvarSize : Nat) (command : Str) (base : Str) :
    Option (List Str) :=
  (packCommandChunksNoMerge maxCvarSize command base).map (mergeBack maxCvarSize base)

/-- Content of cell `i` of `n`: the chunk plus, on every cell but the last,
the escaped chain command `; sp_sc_exec_cvar {base}_{i+1}` (lines 280-282). -/
def qsContent (base : Str) (n i : Nat) (chunk : Str) : Str :=
  if i < n - 1 then
    chunk ++ escape_text ("; sp_sc_exec_cvar ".toList ++ base ++ ('_' :: natStr (i + 1)))
  else chunk

/-- Contents of all cells, as a pure function of the chunk list. -/
def qsContents (base : Str) (n : Nat) : Nat → List Str → List Str
  | _, [] => []
  | i, chunk :: rest => qsContent base n i chunk :: qsContents base n (i + 1) rest

/-- The final render-and-verify loop of `_pack_command_to_cvars`
(lines 276-287); the packer-error `FATAL` (`return None`) is `none`. -/
def buildCvarsGo (maxCvarSize : Nat) (base : Str) (n : Nat) : Nat → List Str → Option (List (Str × Str))
  | _, [] => some []
  | i, chunk :: rest =>
    if (qsContent base n i chunk).length + get_set_command_overhead (base ++ ('_' :: natStr i))
        > maxCvarSize then
      none
    else
      match buildCvarsGo maxCvarSize base n (i + 1) rest with
      | none => none
      | some l => some ((base ++ ('_' :: natStr i), qsContent base n i chunk) :: l)

/-- `QuakeScriptParser._pack_command_to_cvars` (lines 220-287). -/
def packCommandToCvars (maxCvarSize : Nat) (command : Str) (base : Str) :
    Option (List (Str × Str)) :=
  if command = [] then some []
  else if (splitAtomic command).filter (fun p => p ≠ []) = [] then some []
  else
    match packCommandChunks maxCvarSize command base with
    | none => none
    | some chunks => buildCvarsGo maxCvarSize base chunks.length 0 chunks

end Qs

theorem sepJoin_merge (sep x y : Str) :
    ∀ front : List Str,
      sepJoin sep (front ++ [x ++ sep ++ y]) = sepJoin sep (front ++ [x, y]) := by
  intro front
  induction front with
  | nil => rfl
  | cons f fr ih =>
    cases fr with
    | nil => rfl
    | cons f2 fr2 =>
      simp only [List.cons_append] at ih ⊢
      rw [sepJoin_cons₂, sepJoin_cons₂ sep f f2 (fr2 ++ [x, y]), ih]

namespace Qs

theorem mergeBack_cases (maxCvarSize : Nat) (base : Str) (chunks : List Str) :
    (mergeBack maxCvarSize base chunks = chunks ∨
      ∃ front x y, chunks = front ++ [x, y] ∧
        mergeBack maxCvarSize base chunks = front ++ [x ++ sepE ++ y]) ∧
    sepJoin sepE (mergeBack maxCvarSize base chunks) = sepJoin sepE chunks := by
  by_cases hlen : 1 < chunks.length
  · cases hrev : chunks.reverse with
    | nil =>
      have : chunks = [] := by
        have := congrArg List.reverse hrev
        simpa using this
      rw [this] at hlen
      simp at hlen
    | cons lastC rest1 =>
      cases rest1 with
      | nil =>
        have : chunks = [lastC] := by
          have := congrArg List.reverse hrev
          simpa using this
        rw [this] at hlen
        simp at hlen
      | cons penult restRev =>
        have hchunks : chunks = restRev.reverse ++ [penult, lastC] := by
          have := congrArg List.reverse hrev
          simpa [List.append_assoc] using this
        unfold mergeBack
        rw [if_pos hlen, hrev]
        dsimp only
        by_cases hfit : penult.length + sepE.length + lastC.length
            ≤ maxCvarSize
              - get_set_command_overhead (base ++ ('_' :: natStr (chunks.length - 2)))
        · rw [if_pos hfit]
          have hres : ((penult ++ sepE ++ lastC) :: restRev).reverse
              = restRev.reverse ++ [penult ++ sepE ++ lastC] := by
            simp
          rw [hres]
          constructor
          · exact Or.inr ⟨restRev.reverse, penult, lastC, hchunks, rfl⟩
          · rw [hchunks]
            exact sepJoin_merge sepE penult lastC restRev.reverse
        · rw [if_neg hfit]
          exact ⟨Or.inl rfl, rfl⟩
  · unfold mergeBack
    rw [if_neg hlen]
    exact ⟨Or.inl rfl, rfl⟩

/-- C3 (amended): Merge-back equivalence — on every chunk list produced by
the greedy pass of `_pack_command_to_cvars`, the merge-back pass either
changes nothing or replaces the last two chunks by their `'; '`-join,
leaving every earlier chunk byte-identical; joining all chunks with `'; '`
(equivalently, the sequence of atomic units carried) is identical with and
without the pass.  (The claim's plain concatenation of the chunks' raw
content is *not* identical — see the counterexample — because the merge
re-inserts the `'; '` separator between the two merged chunks.) -/
theorem mergeBack_last_two (maxCvarSize : Nat) (base : Str) (command : Str)
    (chunks : List Str)
    (_h : packCommandChunksNoMerge maxCvarSize command base = some chunks) :
    (mergeBack maxCvarSize base chunks = chunks ∨
      ∃ front x y, chunks = front ++ [x, y] ∧
        mergeBack maxCvarSize base chunks = front ++ [x ++ sepE ++ y]) ∧
    sepJoin sepE (mergeBack maxCvarSize base chunks) = sepJoin sepE chunks :=
  mergeBack_cases maxCvarSize base chunks

/-- Witness for C3's amended theorem at the concrete run
`command = "aaaa; bbbb"`, `base = "b"`, `max_cvar_size = 40` (the merge
fires: two chunks become one). -/
theorem mergeBack_last_two_witness :
    packCommandChunksNoMerge 40 "aaaa; bbbb".toList "b".toList
      = some ["aaaa".toList, "bbbb".toList] ∧
    ((mergeBack 40 "b".toList ["aaaa".toList, "bbbb".toList]
        = ["aaaa".toList, "bbbb".toList] ∨
      ∃ front x y, ["aaaa".toList, "bbbb".toList] = front ++ [x, y] ∧
        mergeBack 40 "b".toList ["aaaa".toList, "bbbb".toList]
          = front ++ [x ++ sepE ++ y]) ∧
    sepJoin sepE (mergeBack 40 "b".toList ["aaaa".toList, "bbbb".toList])
      = sepJoin sepE ["aaaa".toList, "bbbb".toList]) :=
  ⟨by decide, mergeBack_last_two 40 "b".toList "aaaa; bbbb".toList _ (by decide)⟩

/-- C3 counterexample: with `command = "aaaa; bbbb"`, `base = "b"`,
`max_cvar_size = 40`, the pass-removed run yields chunks `["aaaa","bbbb"]`,
the shipped run merges them into `["aaaa; bbbb"]`, and the concatenations of
the chunks' raw content differ (`"aaaa; bbbb"` vs `"aaaabbbb"`): the claim's
"concatenation identical in both runs" is false as stated. -/
theorem mergeBack_concatenation_differs :
    packCommandChunksNoMerge 40 "aaaa; bbbb".toList "b".toList
      = some ["aaaa".toList, "bbbb".toList] ∧
    packCommandChunks 40 "aaaa; bbbb".toList "b".toList
      = some ["aaaa; bbbb".toList] ∧
    (["aaaa; bbbb".toList] : List Str).flatten
      ≠ (["aaaa".toList, "bbbb".toList] : List Str).flatten := by
  refine ⟨by decide, by decide, by decide⟩

end Qs

namespace Qs

theorem sepJoin_eq_nil_imp (g : List Str) (helem : ∀ x ∈ g, x ≠ [])
    (h : sepJoin sepE g = []) : g = [] := by
  by_cases hg : g = []
  · exact hg
  · exact absurd h (sepJoin_ne_nil sepE g hg helem)

theorem packPartsGo_structure (maxCvarSize : Nat) (base : Str) :
    ∀ (ps : List Str) (groupsAcc : List (List Str)) (curGroup : List Str) (out : List Str),
      (∀ p ∈ ps, p ≠ []) →
      (∀ g ∈ groupsAcc, g ≠ [] ∧ ∀ x ∈ g, x ≠ []) →
      (∀ x ∈ curGroup, x ≠ []) →
      packPartsGo maxCvarSize base ps (groupsAcc.map (sepJoin sepE)) (sepJoin sepE curGroup)
        = some out →
      ∃ groups : List (List Str),
        out = groups.map (sepJoin sepE) ∧
        groups.flatten = groupsAcc.flatten ++ curGroup ++ ps.map escape_text ∧
        (∀ g ∈ groups, g ≠ [] ∧ ∀ x ∈ g, x ≠ []) := by
  intro ps
  induction ps with
  | nil =>
    intro groupsAcc curGroup out _ hga hcg hout
    rw [packPartsGo] at hout
    by_cases hc : sepJoin sepE curGroup = []
    · have hcgnil : curGroup = [] := sepJoin_eq_nil_imp curGroup hcg hc
      subst hcgnil
      rw [if_pos hc] at hout
      have := (Option.some.injEq _ _).mp hout
      refine ⟨groupsAcc, ?_, by simp, hga⟩
      rw [← this]
      simp
    · rw [if_neg hc] at hout
      have := (Option.some.injEq _ _).mp hout
      refine ⟨groupsAcc ++ [curGroup], ?_, by simp, ?_⟩
      · rw [← this]
        simp
      · intro g hg
        rcases List.mem_append.mp hg with hg | hg
        · exact hga g hg
        · simp only [List.mem_singleton] at hg
          subst hg
          refine ⟨?_, hcg⟩
          intro hnil
          rw [hnil] at hc
          exact hc rfl
  | cons part ps' ih =>
    intro groupsAcc curGroup out hps hga hcg hout
    have hpart : part ≠ [] := hps part (by simp)
    have hesc : escape_text part ≠ [] := escape_text_ne_nil part hpart
    have hps' : ∀ p ∈ ps', p ≠ [] := fun p hp => hps p (by simp [hp])
    rw [packPartsGo] at hout
    by_cases hbig : (escape_text part).length
        > maxCvarSize - get_set_command_overhead (base ++ "_99".toList) - linkOverhead base
    · rw [if_pos hbig] at hout
      cases hout
    · rw [if_neg hbig] at hout
      by_cases hnil : sepJoin sepE curGroup = []
      · rw [if_pos hnil] at hout
        have hcgnil : curGroup = [] := sepJoin_eq_nil_imp curGroup hcg hnil
        subst hcgnil
        obtain ⟨groups, e1, e2, e3⟩ := ih groupsAcc [escape_text part] out hps' hga
          (by intro x hx; simp only [List.mem_singleton] at hx; subst hx; exact hesc) hout
        refine ⟨groups, e1, ?_, e3⟩
        rw [e2]
        simp
      · rw [if_neg hnil] at hout
        have hcgne : curGroup ≠ [] := by
          intro hnil'
          rw [hnil'] at hnil
          exact hnil rfl
        by_cases hfits : (sepJoin sepE curGroup).length + sepE.length + (escape_text part).length
            ≤ maxCvarSize
              - get_set_command_overhead
                  (base ++ ('_' :: natStr (groupsAcc.map (sepJoin sepE)).length))
              - linkOverhead base
        · rw [if_pos hfits] at hout
          have heq : sepJoin sepE (curGroup ++ [escape_text part])
              = sepJoin sepE curGroup ++ sepE ++ escape_text part :=
            sepJoin_append_single sepE (escape_text part) curGroup hcgne
          rw [← heq] at hout
          obtain ⟨groups, e1, e2, e3⟩ := ih groupsAcc (curGroup ++ [escape_text part]) out hps'
            hga
            (by
              intro x hx
              rcases List.mem_append.mp hx with hx | hx
              · exact hcg x hx
              · simp only [List.mem_singleton] at hx
                subst hx
                exact hesc) hout
          refine ⟨groups, e1, ?_, e3⟩
          rw [e2]
          simp [List.append_assoc]
        · rw [if_neg hfits] at hout
          rw [show (groupsAcc.map (sepJoin sepE)) ++ [sepJoin sepE curGroup]
                = (groupsAcc ++ [curGroup]).map (sepJoin sepE) by simp] at hout
          obtain ⟨groups, e1, e2, e3⟩ := ih (groupsAcc ++ [curGroup]) [escape_text part] out hps'
            (by
              intro g hg
              rcases List.mem_append.mp hg with hg | hg
              · exact hga g hg
              · simp only [List.mem_singleton] at hg
                subst hg
                exact ⟨hcgne, hcg⟩)
            (by intro x hx; simp only [List.mem_singleton] at hx; subst hx; exact hesc) hout
          refine ⟨groups, e1, ?_, e3⟩
          rw [e2]
          simp [List.append_assoc]

theorem mergeBack_groups (maxCvarSize : Nat) (base : Str) (groups : List (List Str))
    (hne : ∀ g ∈ groups, g ≠ [] ∧ ∀ x ∈ g, x ≠ []) :
    ∃ groups' : List (List Str),
      mergeBack maxCvarSize base (groups.map (sepJoin sepE)) = groups'.map (sepJoin sepE) ∧
      groups'.flatten = groups.flatten ∧
      (∀ g ∈ groups', g ≠ [] ∧ ∀ x ∈ g, x ≠ []) := by
  obtain ⟨hdisj, h2⟩ := mergeBack_cases maxCvarSize base (groups.map (sepJoin sepE))
  rcases hdisj with heq | ⟨front, x, y, hdec, hres⟩
  · exact ⟨groups, heq, rfl, hne⟩
  · obtain ⟨gf, gtail, hgr, hgf, hgt⟩ := List.append_eq_map_iff.mp hdec.symm
    obtain ⟨g1, gtail2, hgt1, hx, hgt2⟩ := List.map_eq_cons_iff.mp hgt
    obtain ⟨g2, gtail3, hgt3, hy, hgt4⟩ := List.map_eq_cons_iff.mp hgt2
    have hgt5 : gtail3 = [] := List.map_eq_nil_iff.mp hgt4
    subst hgt5
    subst hgt3
    subst hgt1
    subst hgr
    have hg1 : g1 ≠ [] := (hne g1 (by simp)).1
    have hg2 : g2 ≠ [] := (hne g2 (by simp)).1
    refine ⟨gf ++ [g1 ++ g2], ?_, ?_, ?_⟩
    · rw [hres, ← hx, ← hy, ← hgf]
      simp only [List.map_append, List.map_cons, List.map_nil]
      rw [sepJoin_append sepE g1 g2 hg1 hg2]
    · simp [List.append_assoc]
    · intro g hg
      rcases List.mem_append.mp hg with hg | hg
      · exact hne g (by simp [hg])
      · simp only [List.mem_singleton] at hg
        subst hg
        refine ⟨by simp [hg1], ?_⟩
        intro z hz
        rcases List.mem_append.mp hz with hz | hz
        · exact (hne g1 (by simp)).2 z hz
        · exact (hne g2 (by simp)).2 z hz

theorem buildCvarsGo_spec (maxCvarSize : Nat) (base : Str) (n : Nat) :
    ∀ (cs : List Str) (i : Nat) (l : List (Str × Str)),
      buildCvarsGo maxCvarSize base n i cs = some l →
      l.map Prod.fst = (List.range' i cs.length).map (fun j => base ++ ('_' :: natStr j)) ∧
      l.map Prod.snd = qsContents base n i cs := by
  intro cs
  induction cs with
  | nil =>
    intro i l h
    rw [buildCvarsGo] at h
    have := (Option.some.injEq _ _).mp h
    rw [← this]
    simp [qsContents]
  | cons chunk rest ih =>
    intro i l h
    rw [buildCvarsGo] at h
    by_cases hbig : (qsContent base n i chunk).length
        + get_set_command_overhead (base ++ ('_' :: natStr i)) > maxCvarSize
    · rw [if_pos hbig] at h
      cases h
    · rw [if_neg hbig] at h
      rcases hrec : buildCvarsGo maxCvarSize base n (i + 1) rest with _ | l'
      · rw [hrec] at h
        cases h
      · rw [hrec] at h
        have hl := (Option.some.injEq _ _).mp h
        obtain ⟨h1, h2⟩ := ih (i + 1) l' hrec
        rw [← hl]
        constructor
        · simp only [List.map_cons, h1, List.length_cons]
          rw [List.range'_succ]
          simp
        · simp only [List.map_cons, h2, qsContents]

end Qs

/-- C2: Atomicity — in both packers every indivisible atomic unit lands
contiguously inside exactly one cell's content.  Markup variant: every
successful `parse_and_pack` run's chunks are the concatenations of a piece
stream refining the token list (tags whole and in order, only text
fragmented), and each cell's content is the escape of its chunk plus the
chain link.  Script variant: every successful `_pack_command_to_cvars` run's
cells carry a partition of the escaped atomic commands into consecutive
nonempty groups, each cell's content being one group joined by `'; '` plus
the chain link. -/
theorem atomic_units_never_split :
    (∀ (maxCvarSize : Nat) (base content : Str) (cvars : List (Str × Str)),
      Rfm.parse_and_pack maxCvarSize base content = some cvars →
      ∃ parts : List (List Rfm.Tok),
        Rfm.SplitsTexts (Rfm.tokenize content) parts.flatten ∧
        cvars.map Prod.snd
          = Rfm.rfmContents base (parts.map Rfm.chunkOf).length 0 (parts.map Rfm.chunkOf)) ∧
    (∀ (maxCvarSize : Nat) (base command : Str) (cvars : List (Str × Str)),
      Qs.packCommandToCvars maxCvarSize command base = some cvars →
      ∃ groups : List (List Str),
        groups.flatten = ((Qs.splitAtomic command).filter (fun p => p ≠ [])).map escape_text ∧
        (∀ g ∈ groups, g ≠ []) ∧
        cvars.map Prod.snd
          = Qs.qsContents base groups.length 0 (groups.map (sepJoin Qs.sepE))) := by
  constructor
  · intro maxCvarSize base content cvars h
    unfold Rfm.parse_and_pack at h
    cases hp : Rfm.pack_tokens_to_chunks maxCvarSize (Rfm.tokenize content) base with
    | none => rw [hp] at h; cases h
    | some chunks =>
      rw [hp] at h
      dsimp only at h
      obtain ⟨parts, e1, e2⟩ := Rfm.pack_tokens_to_chunks_atomic maxCvarSize
        (Rfm.tokenize content) base chunks (Rfm.tokenize_tag_ne_nil content) hp
      split_ifs at h with h0
      · subst h0
        have hparts : parts = [] := by
          have := List.map_eq_nil_iff.mp e1.symm
          exact this
        subst hparts
        have hcv : cvars = [] := by
          have := (Option.some.injEq _ _).mp h
          exact this.symm
        subst hcv
        exact ⟨[], e2, by simp [Rfm.rfmContents]⟩
      · obtain ⟨h1, h2⟩ := Rfm.renderCvars_spec maxCvarSize base chunks.length chunks 0 cvars h
        refine ⟨parts, e2, ?_⟩
        rw [h2, ← e1]
  · intro maxCvarSize base command cvars h
    unfold Qs.packCommandToCvars at h
    by_cases hcmd : command = []
    · subst hcmd
      rw [if_pos rfl] at h
      have hcv : cvars = [] := ((Option.some.injEq _ _).mp h).symm
      subst hcv
      refine ⟨[], ?_, by simp, by simp [Qs.qsContents]⟩
      decide
    · rw [if_neg hcmd] at h
      by_cases hparts : (Qs.splitAtomic command).filter (fun p => p ≠ []) = []
      · rw [if_pos hparts] at h
        have hcv : cvars = [] := ((Option.some.injEq _ _).mp h).symm
        subst hcv
        refine ⟨[], ?_, by simp, by simp [Qs.qsContents]⟩
        rw [hparts]
        rfl
      · rw [if_neg hparts] at h
        cases hc : Qs.packCommandChunks maxCvarSize command base with
        | none => rw [hc] at h; cases h
        | some chunks =>
          rw [hc] at h
          dsimp only at h
          unfold Qs.packCommandChunks at hc
          rcases hnm : Qs.packCommandChunksNoMerge maxCvarSize command base with _ | chunks₀
          · rw [hnm] at hc; cases hc
          · rw [hnm] at hc
            have hmerge : Qs.mergeBack maxCvarSize base chunks₀ = chunks := by
              simpa using hc
            unfold Qs.packCommandChunksNoMerge at hnm
            have hpne : ∀ p ∈ (Qs.splitAtomic command).filter (fun p => p ≠ []), p ≠ [] := by
              intro p hpmem
              have := List.of_mem_filter hpmem
              simpa using this
            obtain ⟨groups, g1, g2, g3⟩ := Qs.packPartsGo_structure maxCvarSize base
              ((Qs.splitAtomic command).filter (fun p => p ≠ [])) [] [] chunks₀ hpne
              (by intro g hg; cases hg) (by intro x hx; cases hx) hnm
            subst g1
            obtain ⟨groups', m1, m2, m3⟩ := Qs.mergeBack_groups maxCvarSize base groups g3
            rw [hmerge] at m1
            obtain ⟨b1, b2⟩ := Qs.buildCvarsGo_spec maxCvarSize base chunks.length chunks 0 cvars h
            refine ⟨groups', ?_, fun g hg => (m3 g hg).1, ?_⟩
            · rw [m2, g2]
              simp
            · rw [b2, m1]
              simp

/-- Witness for C2 at concrete runs of both variants. -/
theorem atomic_units_never_split_witness :
    (∃ parts : List (List Rfm.Tok),
      Rfm.SplitsTexts (Rfm.tokenize "<a>x</a>".toList) parts.flatten ∧
      ([("m_0".toList, "<a>x</a>".toList)] : List (Str × Str)).map Prod.snd
        = Rfm.rfmContents "m".toList (parts.map Rfm.chunkOf).length 0 (parts.map Rfm.chunkOf)) ∧
    (∃ groups : List (List Str),
      groups.flatten
        = ((Qs.splitAtomic "a; b".toList).filter (fun p => p ≠ [])).map escape_text ∧
      (∀ g ∈ groups, g ≠ []) ∧
      ([("b_0".toList, "a; b".toList)] : List (Str × Str)).map Prod.snd
        = Qs.qsContents "b".toList groups.length 0 (groups.map (sepJoin Qs.sepE))) :=
  ⟨atomic_units_never_split.1 60 "m".toList "<a>x</a>".toList _ (by decide),
   atomic_units_never_split.2 40 "b".toList "a; b".toList _ (by decide)⟩

namespace Qs

/-- Script AST node (working_func_parser.py encodes these as
`str` command lines and `[block_type, header, body_nodes, else_nodes]`
lists). -/
inductive Node where
  | cmd (text : Str)
  | block (btype : Str) (header : Str) (body : List Node) (els : Option (List Node))

/-- The mutable compiler state of `QuakeScriptParser`:
`self.autogen_counter` and `self.helper_cvars`. -/
structure PackState where
  autogenCounter : Nat
  helperCvars : List (Str × Str)

/-- Python f-string rendering of an `Optional[str]` (`None` prints as the
four characters `None` — this is exactly what line 179/184 of the source do
after a failed helper creation). -/
def fstr : Option Str → Str
  | none => "None".toList
  | some s => s

/-- Python truthiness of an `Optional[str]`. -/
def truthy : Option Str → Bool
  | none => false
  | some s => ¬ s = []

/-- `create_helper` (lines 160-169): allocates `f_{parent}_autogen_{k}`,
packs the command string, accumulates helper cvars; failure returns `None`
(and the FATAL print); an empty command returns the empty exec string. -/
def createHelper (maxCvarSize : Nat) (parentFuncName : Str) (commandStr : Str)
    (st : PackState) : Option Str × PackState :=
  if commandStr = [] then (some [], st)
  else
    match packCommandToCvars maxCvarSize commandStr
        ("f_".toList ++ parentFuncName ++ "_autogen_".toList ++ natStr st.autogenCounter) with
    | none => (none, ⟨st.autogenCounter + 1, st.helperCvars⟩)
    | some [] => (none, ⟨st.autogenCounter + 1, st.helperCvars⟩)
    | some (hc :: rest) =>
      (some ("sp_sc_exec_cvar ".toList ++ hc.1),
       ⟨st.autogenCounter + 1, st.helperCvars ++ (hc :: rest)⟩)

/-- The per-`ControlBlock` helper-extraction logic of
`_compile_nodes_to_command` (lines 171-185), after the two branch bodies
have been compiled to `trueCmd0`/`falseCmd0`. -/
def compileControlStage (maxCvarSize : Nat) (parentFuncName header trueCmd0 falseCmd0 : Str)
    (st : PackState) : Str × PackState :=
  let s1 : Option Str × Option Str × Bool × Bool × PackState :=
    if (escape_text (header ++ (' ' :: '"' :: trueCmd0)
        ++ ('"' :: ' ' :: '"' :: falseCmd0) ++ ['"'])).length > maxCvarSize - 80 then
      if (escape_text trueCmd0).length ≥ (escape_text falseCmd0).length then
        let h := createHelper maxCvarSize parentFuncName trueCmd0 st
        (h.1, some falseCmd0, true, false, h.2)
      else
        let h := createHelper maxCvarSize parentFuncName falseCmd0 st
        (some trueCmd0, h.1, false, true, h.2)
    else (some trueCmd0, some falseCmd0, false, false, st)
  match s1 with
  | (trueCmd1, falseCmd1, trueIsHelper, falseIsHelper, st1) =>
    let s2 : Option Str × Option Str × PackState :=
      if (escape_text (header ++ (' ' :: '"' :: fstr trueCmd1)
          ++ ('"' :: ' ' :: '"' :: fstr falseCmd1) ++ ['"'])).length > maxCvarSize - 80 then
        let t2 := if !trueIsHelper then
            createHelper maxCvarSize parentFuncName (fstr trueCmd1) st1
          else (trueCmd1, st1)
        let f2 := if !falseIsHelper && truthy falseCmd1 then
            createHelper maxCvarSize parentFuncName (fstr falseCmd1) t2.2
          else (falseCmd1, t2.2)
        (t2.1, f2.1, f2.2)
      else (trueCmd1, falseCmd1, st1)
    match s2 with
    | (trueCmd2, falseCmd2, st2) =>
      (if truthy falseCmd2 then
        header ++ (' ' :: '"' :: fstr trueCmd2) ++ ('"' :: ' ' :: '"' :: fstr falseCmd2) ++ ['"']
      else header ++ (' ' :: '"' :: fstr trueCmd2) ++ ['"'], st2)

/-- The command-collection loop of `_compile_nodes_to_command`
(lines 147-187), fuel-indexed over the nested AST (any fuel at least the
total node count reproduces the source; the wrappers below pass one derived
from the input size).  Returns the collected commands (joined with `'; '`
by `compileNodesJoin`). -/
def compileNodesGo (maxCvarSize : Nat) (parentFuncName : Str) :
    Nat → List Node → PackState → (List Str × PackState)
  | 0, _, st => ([], st)
  | _ + 1, [], st => ([], st)
  | fuel + 1, Node.cmd text :: rest, st =>
    let r := compileNodesGo maxCvarSize parentFuncName fuel rest st
    ((if text = [] then [] else [text]) ++ r.1, r.2)
  | fuel + 1, Node.block _ header body els :: rest, st =>
    let rt := compileNodesGo maxCvarSize parentFuncName fuel body st
    let rf : Str × PackState := match els with
      | some (n :: ns) =>
        let r := compileNodesGo maxCvarSize parentFuncName fuel (n :: ns) rt.2
        (sepJoin "; ".toList r.1, r.2)
      | _ => ([], rt.2)
    let stage := compileControlStage maxCvarSize parentFuncName header
      (sepJoin "; ".toList rt.1) rf.1 rf.2
    let r := compileNodesGo maxCvarSize parentFuncName fuel rest stage.2
    (stage.1 :: r.1, r.2)

/-- `_compile_nodes_to_command` (lines 141-187): `'; '.join` of the
collected commands. -/
def compileNodesJoin (maxCvarSize : Nat) (parentFuncName : Str) (fuel : Nat)
    (nodes : List Node) (st : PackState) : Str × PackState :=
  let r := compileNodesGo maxCvarSize parentFuncName fuel nodes st
  (sepJoin "; ".toList r.1, r.2)

/-- `'  ' * indent_level`. -/
def indentStr (ind : Nat) : Str := List.replicate (2 * ind) ' '

/-- `_compile_nodes_to_block_format` (lines 190-215), fuel-indexed like
`compileNodesGo`; returns the `output` list of lines/sub-blocks, joined
with newlines by `blockFormat`. -/
def blockFormatGo : Nat → Nat → List Node → List Str
  | 0, _, _ => []
  | _ + 1, _, [] => []
  | fuel + 1, ind, Node.cmd text :: rest =>
    (if text = [] then [] else [indentStr ind ++ text]) ++ blockFormatGo fuel ind rest
  | fuel + 1, ind, Node.block _ header body els :: rest =>
    [indentStr ind ++ header, indentStr ind ++ "\x7b".toList,
      sepJoin ['\n'] (blockFormatGo fuel (ind + 1) body),
      indentStr ind ++ "\x7d".toList]
    ++ (match els with
      | some (n :: ns) =>
        [indentStr ind ++ "else".toList, indentStr ind ++ "\x7b".toList,
          sepJoin ['\n'] (blockFormatGo fuel (ind + 1) (n :: ns)),
          indentStr ind ++ "\x7d".toList]
      | _ => [])
    ++ blockFormatGo fuel ind rest

/-- `_compile_nodes_to_block_format` joined with newlines. -/
def blockFormat (fuel ind : Nat) (nodes : List Node) : Str :=
  sepJoin ['\n'] (blockFormatGo fuel ind nodes)

end Qs

namespace Qs

/-- `[a-zA-Z0-9_]` of the function-name regexes. -/
def pyWordChar (c : Char) : Bool := c.isAlphanum || c = '_'

/-- `re.search(r'function\s+([a-zA-Z0-9_]*)', s)` (line 297): earliest
position where the literal `function` is followed by at least one
whitespace; the (possibly empty) word-character run after the whitespace is
the captured name. -/
def searchFuncNameStar : Str → Option Str
  | [] => none
  | c :: cs =>
    if "function".toList.isPrefixOf (c :: cs) then
      if (((c :: cs).drop 8).takeWhile pyIsSpace) = [] then searchFuncNameStar cs
      else some (((((c :: cs).drop 8).dropWhile pyIsSpace)).takeWhile pyWordChar)
    else searchFuncNameStar cs

/-- `QuakeScriptParser._pack_function_ast` (lines 290-344).  `self` state is
reset on entry (lines 291-292); `fuel` bounds the AST traversal of the two
code generators (the caller passes one derived from the input size).  The
unreachable `AttributeError` of a header with no `function` keyword, and the
dead `body_command_string is None` test of line 304, are modelled as `none`.
All `Nat`-truncated budgets only feed `≤`/`>` comparisons that agree with
Python's negatives for the (nonempty) lengths compared. -/
def packFunctionAst (maxCvarSize fuel : Nat) : Node → Option (List (Str × Str))
  | Node.cmd _ => some []
  | Node.block btype funcHeader bodyNodes _ =>
    if ¬ btype = "function".toList then some []
    else
      match searchFuncNameStar funcHeader with
      | none => none
      | some funcName =>
        if bodyNodes.isEmpty then
          some [("f_".toList ++ funcName ++ "_0".toList,
            escape_text (funcHeader ++ "\x0A\x7B\x0A\x7D".toList))]
        else
          let r := compileNodesJoin maxCvarSize funcName fuel bodyNodes ⟨0, []⟩
          let shellHead := escape_text (funcHeader ++ "\x0A\x7B\x0A".toList)
          let shellTail := escape_text "\x0A\x7D".toList
          let mainName := "f_".toList ++ funcName ++ "_0".toList
          if (escape_text (blockFormat fuel 1 bodyNodes)).length
              ≤ maxCvarSize - get_set_command_overhead mainName
                - shellHead.length - shellTail.length then
            some ((mainName,
              shellHead ++ escape_text (blockFormat fuel 1 bodyNodes) ++ shellTail)
              :: r.2.helperCvars)
          else
            match packCommandToCvars maxCvarSize r.1 ("f_".toList ++ funcName ++ "_body".toList) with
            | none => none
            | some [] => none
            | some (bc :: bcs) =>
              if (shellHead
                  ++ escape_text ("  sp_sc_exec_cvar ".toList ++ bc.1 ++ ['\x0A'])
                  ++ shellTail).length > maxCvarSize - get_set_command_overhead mainName then
                none
              else
                some ((mainName,
                  shellHead ++ escape_text ("  sp_sc_exec_cvar ".toList ++ bc.1 ++ ['\x0A'])
                    ++ shellTail)
                  :: ((bc :: bcs) ++ r.2.helperCvars))

/-- `QuakeScriptParser._strip_comment`'s regex pass (lines 20, 25-28):
quoted spans are kept verbatim, `//` outside quotes drops the rest of the
line.  Fuel-indexed (pass the line length). -/
def stripCommentGo : Nat → Str → Str
  | 0, s => s
  | _ + 1, [] => []
  | fuel + 1, c :: cs =>
    if c = '"' then
      match (cs.span (fun a => ¬ a = '"')).2 with
      | [] => c :: stripCommentGo fuel cs
      | _ :: rest => c :: (cs.span (fun a => ¬ a = '"')).1 ++ '"' :: stripCommentGo fuel rest
    else if c = '/' ∧ cs.head? = some '/' then []
    else c :: stripCommentGo fuel cs

/-- `_strip_comment` (lines 25-28): regex pass then `.strip()`. -/
def stripCommentLine (line : Str) : Str := pyStrip (stripCommentGo line.length line)

/-- Python `content.split('\n')`. -/
def splitLines : Str → List Str
  | [] => [[]]
  | c :: cs =>
    if c = '\n' then [] :: splitLines cs
    else
      match splitLines cs with
      | [] => [[c]]
      | l :: ls => (c :: l) :: ls

/-- Index of the last `}` in a line (Python `rfind('}')`), if any. -/
def rfindBrace (s : Str) : Option Nat :=
  match s.reverse.findIdx? (fun c => c = '\x7d') with
  | none => none
  | some j => some (s.length - 1 - j)

/-- The body-collection loop of `_parse_blocks` (lines 73-90) and of
`_extract_else_block` (lines 123-139); both loops are the same code.
State: the signed brace depth and the remaining lines; returns the body
lines, the remaining lines (with any text after the closing brace pushed
back), and whether the closing brace was found. -/
def collectBody : Nat → Int → List Str → (List Str × List Str × Bool)
  | 0, _, lines => ([], lines, false)
  | _ + 1, _, [] => ([], [], false)
  | fuel + 1, count, cur :: rest =>
    let count' := count + (cur.count '\x7b' : Int) - (cur.count '\x7d' : Int)
    if count' = 0 then
      match rfindBrace cur with
      | some idx =>
        ([pyStrip (cur.take idx)],
         (if pyStrip (cur.drop (idx + 1)) = [] then rest
          else pyStrip (cur.drop (idx + 1)) :: rest), true)
      | none =>
        ([pyStrip (cur.dropLast)],
         (if pyStrip cur = [] then rest else pyStrip cur :: rest), true)
    else
      let r := collectBody fuel count' rest
      (cur :: r.1, r.2.1, r.2.2)

end Qs

namespace Qs

/-- `_extract_else_block` (lines 105-139); its collection loop is
`collectBody`.  Returns the else-body lines and the remaining lines. -/
def extractElse : List Str → (List Str × List Str)
  | [] => ([], [])
  | h :: rest =>
    if "\x7b".toList.isPrefixOf (pyStrip ((pyStrip h).drop 4)) then
      let r := collectBody
        ((pyStrip ((pyStrip ((pyStrip h).drop 4)).drop 1) :: rest).length + 1) 1
        (pyStrip ((pyStrip ((pyStrip h).drop 4)).drop 1) :: rest)
      (r.1, r.2.1)
    else
      match rest with
      | [] => ([], [])
      | h2 :: rest2 =>
        if ¬ "\x7b".toList.isPrefixOf (pyStrip h2) then ([], h2 :: rest2)
        else
          let r := collectBody ((pyStrip ((pyStrip h2).drop 1) :: rest2).length + 1) 1
            (pyStrip ((pyStrip h2).drop 1) :: rest2)
          (r.1, r.2.1)

/-- `_parse_blocks` (lines 33-103), fuel-indexed (every step consumes input;
the wrapper passes a generous input-derived fuel).  In-place mutation of
`lines[i]` is modelled by pushing the rewritten line back as the head of the
remaining lines. -/
def parseBlocksGo : Nat → List Str → List Node
  | 0, _ => []
  | _ + 1, [] => []
  | fuel + 1, l :: rest =>
    if pyStrip l = [] then parseBlocksGo fuel rest
    else if ¬ ("function ".toList.isPrefixOf (pyStrip l)
        || "sp_sc_flow_if".toList.isPrefixOf (pyStrip l)
        || "sp_sc_flow_while".toList.isPrefixOf (pyStrip l)) then
      Node.cmd (pyStrip l) :: parseBlocksGo fuel rest
    else
      let btype := if "function ".toList.isPrefixOf (pyStrip l) then "function".toList
        else "control".toList
      let doBody := fun (header : Str) (ls : List Str) =>
        let r := collectBody (ls.length + 1) 1 ls
        let bodyNodes := parseBlocksGo fuel r.1
        if btype = "control".toList ∧ "sp_sc_flow_if".toList.isPrefixOf header then
          match r.2.1 with
          | [] => [Node.block btype header bodyNodes none]
          | hrem :: restRem =>
            if "else".toList.isPrefixOf (pyStrip hrem) then
              Node.block btype header bodyNodes
                  (some (parseBlocksGo fuel (extractElse (hrem :: restRem)).1))
                :: parseBlocksGo fuel (extractElse (hrem :: restRem)).2
            else
              Node.block btype header bodyNodes none :: parseBlocksGo fuel (hrem :: restRem)
        else
          Node.block btype header bodyNodes none :: parseBlocksGo fuel r.2.1
      match (pyStrip l).findIdx? (fun c => c = '\x7b') with
      | some bracePos =>
        doBody (pyStrip ((pyStrip l).take bracePos))
          (pyStrip ((pyStrip l).drop (bracePos + 1)) :: rest)
      | none =>
        match rest with
        | [] => [Node.cmd (pyStrip l)]
        | l2 :: rest2 =>
          if pyStrip l2 = "\x7b".toList then doBody (pyStrip l) rest2
          else Node.cmd (pyStrip l) :: parseBlocksGo fuel (l2 :: rest2)

/-- `_parse_blocks` with an input-derived fuel (ample for any input: every
recursion step strictly consumes characters or lines). -/
def parseBlocks (lines : List Str) : List Node :=
  parseBlocksGo (((lines.map List.length).sum + lines.length) * 2 + 16) lines

/-- The per-function loop of `parse_and_pack_script` (lines 378-391):
a `None` from `_pack_function_ast` aborts the whole compile. -/
def packFuncList (maxCvarSize fuel : Nat) : List Node → Option (List (Str × Str))
  | [] => some []
  | n :: ns =>
    match packFunctionAst maxCvarSize fuel n with
    | none => none
    | some cv =>
      match packFuncList maxCvarSize fuel ns with
      | none => none
      | some l => some (cv ++ l)

/-- `isinstance(n, list) and n[0] == 'function'` (line 375). -/
def isFunctionNode : Node → Bool
  | Node.block btype _ _ _ => btype = "function".toList
  | _ => false

/-- `QuakeScriptParser.parse_and_pack_script` (lines 370-392).  Prints are
dropped; the `+`-regex of line 379 feeds only a log message and is omitted.
Both the no-functions case and a packing failure return `[]`. -/
def parse_and_pack_script (maxCvarSize : Nat) (content : Str) : List (Str × Str) :=
  if ((parseBlocks ((splitLines content).map stripCommentLine)).filter isFunctionNode).isEmpty
  then []
  else
    match packFuncList maxCvarSize (2 * content.length + 16)
        ((parseBlocks ((splitLines content).map stripCommentLine)).filter isFunctionNode) with
    | none => []
    | some l => l

/-- `f'set {name} "{val}"'` (line 351). -/
def setLine (p : Str × Str) : Str :=
  "set ".toList ++ p.1 ++ " \"".toList ++ p.2 ++ "\"".toList

/-- `f'sp_sc_cvar_unescape {name} {name}'` (line 355). -/
def unescLine (p : Str × Str) : Str :=
  "sp_sc_cvar_unescape ".toList ++ p.1 ++ (' ' :: p.1)

/-- Python `name.rsplit('_', 1)[0]` (line 360). -/
def rsplitBase (s : Str) : Str :=
  match s.reverse.findIdx? (fun c => c = '_') with
  | none => s
  | some j => s.take (s.length - 1 - j)

/-- The entry-point selection loop of `generate_cfg_output`
(lines 357-362). -/
def entryPointsGo : List Str → List (Str × Str) → List Str
  | _, [] => []
  | seen, (name, _) :: rest =>
    if containsSub "_autogen_".toList name || containsSub "_body_".toList name then
      entryPointsGo seen rest
    else if seen.contains (rsplitBase name) then entryPointsGo seen rest
    else name :: entryPointsGo (seen ++ [rsplitBase name]) rest

/-- The `output_lines` list built by `generate_cfg_output` (lines 346-367).
Note: the oversized-line check of lines 352-353 only *prints* `FATAL` — the
line is appended to the output regardless, so the rendered text does not
depend on `max_cvar_size` at all. -/
def cfgOutputLines (cvars : List (Str × Str)) : List Str :=
  ["//--- Generated by QuakeScriptParser ---//".toList,
    "// This file is auto-generated. Do not edit manually.".toList, []]
  ++ cvars.flatMap (fun p => [setLine p, unescLine p, []])
  ++ (if (entryPointsGo [] cvars).isEmpty then []
      else ["// --- Entry Points ---".toList,
        "// Use these commands in your autoexec.cfg or script initializers to load the functions.".toList]
        ++ (entryPointsGo [] cvars).map (fun e => "sp_sc_func_load_cvar ".toList ++ e))

/-- `QuakeScriptParser.generate_cfg_output` (lines 346-368). -/
def generate_cfg_output (cvars : List (Str × Str)) : Str :=
  sepJoin ['\n'] (cfgOutputLines cvars)

end Qs

namespace Qs

/-- A function definition with a 300-character name and an empty body. -/
def longHeaderInput : Str :=
  "function ".toList ++ List.replicate 300 'a' ++ "\x0A\x7B\x0A\x7D".toList

/-- A function whose `if` true-branch is a single 200-character atomic
command: too large to inline (> `max_cvar_size - 80`) and too large for any
helper cell, so `create_helper` fails with a FATAL message. -/
def swallowedHelperInput : Str :=
  "function foo\x0A\x7B\x0Asp_sc_flow_if cond\x0A\x7B\x0A".toList
    ++ List.replicate 200 'x' ++ "\x0A\x7D\x0A\x7D".toList

set_option maxRecDepth 100000

/-- C1 (code bug): capacity post-condition violated by the script variant —
compiling a function with an over-long name and empty body (default
`max_cvar_size = 255`) returns a cell whose rendered `set NAME "content"`
line is 628 characters long (the empty-body path of `_pack_function_ast`,
line 300, performs no size check), and `generate_cfg_output` emits that very
line into the rendered text (its check at lines 352-353 prints `FATAL` but
appends the line anyway). -/
theorem oversized_cell_returned_and_emitted :
    (Qs.parse_and_pack_script 255 Qs.longHeaderInput).map (fun p => (Qs.setLine p).length)
      = [628] ∧
    (∀ p ∈ Qs.parse_and_pack_script 255 Qs.longHeaderInput,
      Qs.setLine p ∈ Qs.cfgOutputLines (Qs.parse_and_pack_script 255 Qs.longHeaderInput)) := by
  refine ⟨by decide, by decide⟩

/-- C4 (code bug): fatal-error atomicity violated — on a compile whose
`if`-branch helper fails to pack (`create_helper` gets `None` back from
`_pack_command_to_cvars` and the FATAL print fires), the compile does not
abort: `parse_and_pack_script` returns two cells, the body cell containing
the Python literal `None` rendered into the command (`%22None%22`). -/
theorem helper_failure_not_fatal :
    Qs.packCommandToCvars 255 (List.replicate 200 'x') "f_foo_autogen_0".toList = none ∧
    Qs.parse_and_pack_script 255 Qs.swallowedHelperInput
      = [("f_foo_0".toList,
          "function foo%0A\x7B%0A  sp_sc_exec_cvar f_foo_body_0%0A%0A\x7D".toList),
         ("f_foo_body_0".toList, "sp_sc_flow_if cond %22None%22".toList)] := by
  refine ⟨by decide, by decide⟩

/-- C8 counterexample: the script variant returns duplicate cell names — a
script defining two functions both named `foo` compiles to two cells that
are both named `f_foo_0`. -/
theorem parse_and_pack_script_duplicate_names :
    (Qs.parse_and_pack_script 255
        "function foo\x0A\x7B\x0A\x7D\x0Afunction foo\x0A\x7B\x0A\x7D".toList).map Prod.fst
      = ["f_foo_0".toList, "f_foo_0".toList] ∧
    ¬ ((Qs.parse_and_pack_script 255
        "function foo\x0A\x7B\x0A\x7D\x0Afunction foo\x0A\x7B\x0A\x7D".toList).map
          Prod.fst).Nodup := by
  refine ⟨by decide, by decide⟩

end Qs
